import Mathlib

set_option maxHeartbeats 1000000

/-!
Verification of the storage reconciliation and stable-identifier allocation
core of the final-archive repository.

The embedding follows the TypeScript source:
* `src/services/r2.ts` (`R2Service.getMediaType`, key classification),
* `src/services/idGenerator.ts` (`IdGenerator.createImageRecord`),
* the reconciliation job (`runSync`),
* `src/routes/webhook.ts` (`normalizeKey`, `processKey`, the route handler).

The catalog store (a Prisma-managed table) is represented as a list of
records; the storage layer's unique indexes on `id` and `originalKey` are
modelled from the spec (the Prisma schema file is not part of the sources),
and randomness is passed in explicitly as a stream of draws.
-/

inductive MediaType where
  | IMAGE
  | VIDEO
deriving DecidableEq, Repr

/-- The catalog row (Prisma model `Image`); field set as used by the core. -/
structure MediaRecord where
  id : String
  originalKey : String
  url : String
  mediaType : MediaType
  sizeBytes : Option Nat
  contentType : Option String
  isActive : Bool
  createdAt : Nat
deriving DecidableEq, Repr

/-- The catalog table. -/
abbrev Db := List MediaRecord

/-! ### Key classification (`R2Service.getMediaType`) -/

/-- One character of JavaScript `String.prototype.toLowerCase` (ASCII case
mapping, which is all the extension matching below depends on). -/
def lowerChar (c : Char) : Char :=
  if 65 ≤ c.toNat ∧ c.toNat ≤ 90 then Char.ofNat (c.toNat + 32) else c

/-- `key.toLowerCase()`. -/
def toLowerCase (s : String) : String := ⟨s.data.map lowerChar⟩

def imageExt : List String := [".jpg", ".jpeg", ".png", ".webp", ".gif", ".avif"]

def videoExt : List String := [".mp4", ".webm", ".mov"]

/-- `lowerKey.endsWith(ext)`. -/
def strEndsWith (s post : String) : Bool :=
  post.data.isSuffixOf s.data

/-- `R2Service.getMediaType` from `src/services/r2.ts`. -/
def getMediaType (key : String) : Option MediaType :=
  let lowerKey := toLowerCase key
  if imageExt.any (fun e => strEndsWith lowerKey e) then some MediaType.IMAGE
  else if videoExt.any (fun e => strEndsWith lowerKey e) then some MediaType.VIDEO
  else none

/-! ### Identifier allocator (`IdGenerator`) -/

/-- `String.prototype.padStart(len, c)`. -/
def padStart (s : String) (len : Nat) (c : Char) : String :=
  ⟨List.replicate (len - s.data.length) c ++ s.data⟩

/-- `IdGenerator.generateId`: a uniform draw from 0..99999, zero-padded to
5 digits.  The raw random draw is supplied as a natural number. -/
def generateId (draw : Nat) : String :=
  padStart (Nat.repr (draw % 100000)) 5 '0'

/-- The descriptive data handed to `createImageRecord`. -/
structure CreateData where
  originalKey : String
  url : String
  mediaType : Option MediaType
  sizeBytes : Option Nat
  contentType : Option String

/-- Failure modes of `createImageRecord`: a P2002 unique violation on
`originalKey` re-thrown as the duplicate-source condition, or the retry
budget exhausted. -/
inductive CreateErr where
  | duplicateKey
  | exhausted
deriving DecidableEq, Repr

def keyTaken (db : Db) (k : String) : Bool :=
  db.any (fun r => r.originalKey = k)

def idTaken (db : Db) (i : String) : Bool :=
  db.any (fun r => r.id = i)

inductive InsertErr where
  | uniqueKey
  | uniqueId
deriving DecidableEq

/-- Modelled from the spec: the storage layer's atomic insert
(`prisma.image.create`); the Prisma schema declaring the unique indexes on
`id` and `originalKey` is not among the sources.  The insert either commits
one row or reports the violated unique column; a violation on
`originalKey` is reported in preference to one on `id` (the key being
permanently taken is the non-retryable condition).  New rows are active. -/
def tryInsert (db : Db) (newId : String) (data : CreateData) (now : Nat) :
    Except InsertErr (MediaRecord × Db) :=
  if keyTaken db data.originalKey then .error .uniqueKey
  else if idTaken db newId then .error .uniqueId
  else
    let r : MediaRecord :=
      { id := newId, originalKey := data.originalKey, url := data.url,
        mediaType := data.mediaType.getD MediaType.IMAGE,
        sizeBytes := data.sizeBytes, contentType := data.contentType,
        isActive := true, createdAt := now }
    .ok (r, db ++ [r])

def maxRetries : Nat := 10

/-- The retry loop of `IdGenerator.createImageRecord`, recursing on the
remaining budget (`fuel = maxRetries - attempts`).  `draws n` is the random
draw used by attempt `n`.  The returned database is the table after the
call: unchanged on every failure path. -/
def createLoop (data : CreateData) (draws : Nat → Nat) (now : Nat) (db : Db) :
    Nat → Nat → (Except CreateErr MediaRecord) × Db
  | _, 0 => (.error .exhausted, db)
  | attempts, fuel+1 =>
    match tryInsert db (generateId (draws attempts)) data now with
    | .ok (r, db') => (.ok r, db')
    | .error .uniqueId => createLoop data draws now db (attempts+1) fuel
    | .error .uniqueKey => (.error .duplicateKey, db)

/-- `IdGenerator.createImageRecord` from `src/services/idGenerator.ts`. -/
def createImageRecord (data : CreateData) (draws : Nat → Nat) (now : Nat)
    (db : Db) : (Except CreateErr MediaRecord) × Db :=
  createLoop data draws now db 0 maxRetries

/-! ### Reconciliation job (`runSync`) -/

/-- One entry of the object-store listing (`_Object`): S3 objects may lack a
key, and `!obj.Key` in the source also skips an empty-string key. -/
structure RObj where
  key : Option String
  size : Option Nat
deriving DecidableEq, Repr

/-- The summary `runSync` reports (`SyncResult`); `skipped` defaults to
false where the source leaves it undefined. -/
structure SyncResult where
  ok : Bool
  skipped : Bool
  reason : Option String
  newCount : Nat
  deactivatedCount : Nat
  reactivatedCount : Nat
deriving DecidableEq, Repr

/-- The guard sequence applied to each listed object in `runSync`
(`if (!obj.Key) continue; if (env.R2_PREFIX && !obj.Key.startsWith(..))
continue; if (!getMediaType(obj.Key)) continue`), returning the key when
the object is counted.  The same guards build the observed-key set and
drive the add/reactivate walk. -/
def objKey? (pfx : String) (o : RObj) : Option String :=
  match o.key with
  | none => none
  | some k =>
    if k = "" then none
    else if pfx ≠ "" ∧ ¬ k.startsWith pfx then none
    else
      match getMediaType k with
      | none => none
      | some _ => some k

/-- The observed-key set `r2Keys` of a listing pass. -/
def observedKeys (pfx : String) (objs : List RObj) : List String :=
  objs.filterMap (objKey? pfx)

/-- `prisma.image.updateMany({where: {originalKey: k}, data: {isActive: b}})`. -/
def updateManyActive (k : String) (b : Bool) (db : Db) : Db :=
  db.map (fun r => if r.originalKey = k then { r with isActive := b } else r)

/-- The `(originalKey, isActive)` snapshot `existingImages`. -/
def snapshotOf (db : Db) : List (String × Bool) :=
  db.map (fun r => (r.originalKey, r.isActive))

/-- Mutable state of the add/reactivate walk of `runSync`. -/
structure AddState where
  db : Db
  newCount : Nat
  reactivatedCount : Nat
  callIdx : Nat

/-- The first `for (const obj of objects)` loop of `runSync`: register
unknown keys via the allocator, reactivate known-but-inactive keys.  A
thrown allocator error aborts the walk carrying the table as mutated so
far (the source's surrounding try/catch). -/
def syncAddLoop (pfx cdn : String) (snap : List (String × Bool))
    (snapKeys : List String) (draws : Nat → Nat → Nat) (now : Nat) :
    List RObj → AddState → Except Db AddState
  | [], st => .ok st
  | o :: rest, st =>
    match objKey? pfx o with
    | none => syncAddLoop pfx cdn snap snapKeys draws now rest st
    | some k =>
      if snapKeys.contains k then
        match snap.find? (fun p => p.fst = k) with
        | some p =>
          if p.snd = false then
            syncAddLoop pfx cdn snap snapKeys draws now rest
              { st with db := updateManyActive k true st.db,
                        reactivatedCount := st.reactivatedCount + 1 }
          else syncAddLoop pfx cdn snap snapKeys draws now rest st
        | none => syncAddLoop pfx cdn snap snapKeys draws now rest st
      else
        match createImageRecord
            ⟨k, cdn ++ "/" ++ k, getMediaType k, o.size, none⟩
            (draws st.callIdx) now st.db with
        | (.ok _, db') =>
          syncAddLoop pfx cdn snap snapKeys draws now rest
            { st with db := db', newCount := st.newCount + 1,
                      callIdx := st.callIdx + 1 }
        | (.error _, db') => .error db'

/-- The second loop of `runSync`: deactivate snapshot entries that are
active but not among the observed keys. -/
def deactLoop (r2Keys : List String) :
    List (String × Bool) → Db → Nat → Db × Nat
  | [], db, n => (db, n)
  | p :: rest, db, n =>
    if ¬ r2Keys.contains p.fst ∧ p.snd then
      deactLoop r2Keys rest (updateManyActive p.fst false db) (n+1)
    else deactLoop r2Keys rest db n

/-- `runSync` from the reconciliation job.  The listing result is passed in
(`.error` for a thrown `listAllObjects`), randomness as a per-allocator-call
stream of draws, `now` as the insertion timestamp. -/
def runSync (enabled : Bool) (pfx cdn : String)
    (listing : Except String (List RObj)) (draws : Nat → Nat → Nat)
    (now : Nat) (db : Db) : SyncResult × Db :=
  if !enabled then
    ({ ok := false, skipped := true, reason := some "R2 sync disabled",
       newCount := 0, deactivatedCount := 0, reactivatedCount := 0 }, db)
  else
    match listing with
    | .error _ =>
      ({ ok := false, skipped := false, reason := some "Error during R2 Sync",
         newCount := 0, deactivatedCount := 0, reactivatedCount := 0 }, db)
    | .ok objs =>
      let snap := snapshotOf db
      let snapKeys := db.map (fun r => r.originalKey)
      let r2Keys := observedKeys pfx objs
      match syncAddLoop pfx cdn snap snapKeys draws now objs ⟨db, 0, 0, 0⟩ with
      | .error dbErr =>
        ({ ok := false, skipped := false, reason := some "Error during R2 Sync",
           newCount := 0, deactivatedCount := 0, reactivatedCount := 0 }, dbErr)
      | .ok st =>
        let dd := deactLoop r2Keys snap st.db 0
        ({ ok := true, skipped := false, reason := none,
           newCount := st.newCount, deactivatedCount := dd.snd,
           reactivatedCount := st.reactivatedCount }, dd.fst)

/-! ### Webhook handler (`src/routes/webhook.ts`) -/

def hexDigit? (c : Char) : Option Nat :=
  if 48 ≤ c.toNat ∧ c.toNat ≤ 57 then some (c.toNat - 48)
  else if 65 ≤ c.toNat ∧ c.toNat ≤ 70 then some (c.toNat - 55)
  else if 97 ≤ c.toNat ∧ c.toNat ≤ 102 then some (c.toNat - 87)
  else none

/-- Parse one `%XX` escape, returning the byte and the rest. -/
def pctByte? : List Char → Option (Nat × List Char)
  | '%' :: h :: l :: rest =>
    match hexDigit? h, hexDigit? l with
    | some a, some b => some (a * 16 + b, rest)
    | _, _ => none
  | _ => none

/-- Parse one `%XX` continuation byte whose value must lie in `[lo, hi]`,
returning its 6 payload bits. -/
def contByte? (lo hi : Nat) (cs : List Char) : Option (Nat × List Char) :=
  match pctByte? cs with
  | some (b, rest) => if lo ≤ b ∧ b ≤ hi then some (b % 64, rest) else none
  | none => none

/-- The decoding walk of JavaScript `decodeURIComponent`: literal characters
pass through, `%`-escape clusters must spell a well-formed UTF-8 sequence
(no overlong forms, no surrogates, at most U+10FFFF); any malformed escape
makes the whole decode throw (`none`).  Fuel is the remaining character
count, so it never runs out before the input does. -/
def decodeAux : Nat → List Char → Option (List Char)
  | _, [] => some []
  | 0, _ :: _ => none
  | fuel+1, c :: cs =>
    if c = '%' then
      match pctByte? (c :: cs) with
      | none => none
      | some (b, rest) =>
        if b < 128 then
          (decodeAux fuel rest).map (fun l => Char.ofNat b :: l)
        else if 194 ≤ b ∧ b ≤ 223 then
          match contByte? 128 191 rest with
          | some (x, rest2) =>
            (decodeAux fuel rest2).map (fun l => Char.ofNat ((b % 32) * 64 + x) :: l)
          | none => none
        else if 224 ≤ b ∧ b ≤ 239 then
          let lo := if b = 224 then 160 else 128
          let hi := if b = 237 then 159 else 191
          match contByte? lo hi rest with
          | some (x1, rest2) =>
            match contByte? 128 191 rest2 with
            | some (x2, rest3) =>
              (decodeAux fuel rest3).map
                (fun l => Char.ofNat ((b % 16) * 4096 + x1 * 64 + x2) :: l)
            | none => none
          | none => none
        else if 240 ≤ b ∧ b ≤ 244 then
          let lo := if b = 240 then 144 else 128
          let hi := if b = 244 then 143 else 191
          match contByte? lo hi rest with
          | some (x1, rest2) =>
            match contByte? 128 191 rest2 with
            | some (x2, rest3) =>
              match contByte? 128 191 rest3 with
              | some (x3, rest4) =>
                (decodeAux fuel rest4).map
                  (fun l =>
                    Char.ofNat ((b % 8) * 262144 + x1 * 4096 + x2 * 64 + x3) :: l)
              | none => none
            | none => none
          | none => none
        else none
    else
      (decodeAux fuel cs).map (fun l => c :: l)

/-- JavaScript `decodeURIComponent`; `none` models a thrown `URIError`. -/
def decodeURIComponent (s : String) : Option String :=
  (decodeAux s.data.length s.data).map (fun l => ⟨l⟩)

/-- `rawKey.replace(/\+/g, ' ')`. -/
def replacePlus (s : String) : String :=
  ⟨s.data.map (fun c => if c = '+' then ' ' else c)⟩

/-- `normalizeKey` from the webhook handler: `+` becomes a space, then the
result is percent-decoded; if decoding throws, the raw key is used. -/
def normalizeKey (rawKey : String) : String :=
  match decodeURIComponent (replacePlus rawKey) with
  | some s => s
  | none => rawKey

/-- JavaScript `String.prototype.includes`. -/
def strIncludes (s sub : String) : Bool :=
  s.data.tails.any (fun t => sub.data.isPrefixOf t)

/-- `prisma.image.findUnique({where: {originalKey: k}})`. -/
def findUniqueByKey (db : Db) (k : String) : Option MediaRecord :=
  db.find? (fun r => r.originalKey = k)

/-- `prisma.image.update({where: {id: i}, data: {isActive: b}})`. -/
def updateById (i : String) (b : Bool) (db : Db) : Db :=
  db.map (fun r => if r.id = i then { r with isActive := b } else r)

/-- `processKey` from the webhook handler.  The error case carries the
table at the point of the throw (the allocator is the only thrower and
mutates nothing when it fails). -/
def processKey (cdn : String) (rawKey : String) (eventName : Option String)
    (draws : Nat → Nat) (now : Nat) (db : Db) : Except Db Db :=
  let key := normalizeKey rawKey
  let isRemoved :=
    match eventName with
    | none => false
    | some e => strIncludes e "ObjectRemoved"
  let isCreate :=
    match eventName with
    | none => true
    | some e => e = "" || strIncludes e "ObjectCreated"
  if isRemoved then .ok (updateManyActive key false db)
  else if !isCreate then .ok db
  else
    match getMediaType key with
    | none => .ok db
    | some mt =>
      match findUniqueByKey db key with
      | some existing =>
        if existing.isActive = false then .ok (updateById existing.id true db)
        else .ok db
      | none =>
        match createImageRecord
            ⟨key, cdn ++ "/" ++ key, some mt, none, none⟩ draws now db with
        | (.ok _, db') => .ok db'
        | (.error _, db') => .error db'

/-- The webhook body, resolved into the tagged union the handler
discriminates: `{key, eventName?}`, the batched S3 `Records` shape (each
entry `(s3.object.key?, eventName?)`), or an unknown format. -/
inductive Payload where
  | simple (key : String) (eventName : Option String)
  | batched (records : List (Option String × Option String))
  | unknown

/-- The `for (const record of body.Records)` walk; `!recordKey` skips a
missing or empty key; a throw aborts the remaining records (the source's
catch wraps the whole loop). -/
def processRecords (cdn : String) (draws : Nat → Nat → Nat) (now : Nat) :
    List (Option String × Option String) → Nat → Db → Except Db Db
  | [], _, db => .ok db
  | (none, _) :: rest, ci, db => processRecords cdn draws now rest ci db
  | (some k, ev) :: rest, ci, db =>
    if k = "" then processRecords cdn draws now rest ci db
    else
      match processKey cdn k ev (draws ci) now db with
      | .ok db' => processRecords cdn draws now rest (ci + 1) db'
      | .error db' => .error db'

/-- The asynchronous processing block of the webhook route, before the
outer catch.  A `body.key` that is a non-empty string is Shape A; a
`Records` array is Shape B; anything else is logged and ignored. -/
def processPayloadE (cdn : String) (p : Payload) (draws : Nat → Nat → Nat)
    (now : Nat) (db : Db) : Except Db Db :=
  match p with
  | .simple k ev => if k = "" then .ok db else processKey cdn k ev (draws 0) now db
  | .batched recs => processRecords cdn draws now recs 0 db
  | .unknown => .ok db

/-- The asynchronous processing block including the outer catch: a thrown
error is logged and swallowed, leaving the table as mutated so far. -/
def processPayload (cdn : String) (p : Payload) (draws : Nat → Nat → Nat)
    (now : Nat) (db : Db) : Db :=
  match processPayloadE cdn p draws now db with
  | .ok d => d
  | .error d => d

/-- The three responses the webhook route can send. -/
inductive HookResponse where
  | ack200
  | forbidden403
  | unavailable503
deriving DecidableEq, Repr

/-- The webhook route handler: secret check, enabled check, immediate
acknowledgment, then the asynchronous processing whose outcome the
response never depends on. -/
def webhookHandler (secretHeader presharedSecret : String) (enabled : Bool)
    (cdn : String) (p : Payload) (draws : Nat → Nat → Nat) (now : Nat)
    (db : Db) : HookResponse × Db :=
  if secretHeader ≠ presharedSecret then (.forbidden403, db)
  else if !enabled then (.unavailable503, db)
  else (.ack200, processPayload cdn p draws now db)

/-! ### Composite operations on the catalog (for the frame property) -/

/-- One catalog-mutating entry point: a reconciliation pass or a webhook
delivery. -/
inductive Op where
  | sync (enabled : Bool) (pfx cdn : String)
      (listing : Except String (List RObj)) (draws : Nat → Nat → Nat)
      (now : Nat)
  | hook (secretHeader presharedSecret : String) (enabled : Bool)
      (cdn : String) (p : Payload) (draws : Nat → Nat → Nat) (now : Nat)

def applyOp (db : Db) : Op → Db
  | .sync e pfx cdn listing draws now => (runSync e pfx cdn listing draws now db).snd
  | .hook s ps e cdn p draws now => (webhookHandler s ps e cdn p draws now db).snd

def applyOps (ops : List Op) (db : Db) : Db := ops.foldl applyOp db

/-- Every field of a record except `isActive`. -/
def shape (r : MediaRecord) :
    String × String × String × MediaType × Option Nat × Option String × Nat :=
  (r.id, r.originalKey, r.url, r.mediaType, r.sizeBytes, r.contentType, r.createdAt)

/-! ## Helper notions for the proofs -/

/-- `{r with isActive := b}`: the only way any operation of the core edits
an existing record. -/
def setActive (r : MediaRecord) (b : Bool) : MediaRecord := { r with isActive := b }

/-- The keys of a table. -/
def keysOf (db : Db) : List String := db.map (fun r => r.originalKey)

/-- The ids of a table. -/
def idsOf (db : Db) : List String := db.map (fun r => r.id)

theorem setActive_self (r : MediaRecord) (b : Bool) (h : r.isActive = b) :
    setActive r b = r := by
  cases r; cases h; rfl

theorem setActive_setActive (r : MediaRecord) (b c : Bool) :
    setActive (setActive r b) c = setActive r c := rfl

@[simp] theorem isActive_setActive (r : MediaRecord) (b : Bool) :
    (setActive r b).isActive = b := rfl

@[simp] theorem originalKey_setActive (r : MediaRecord) (b : Bool) :
    (setActive r b).originalKey = r.originalKey := rfl

@[simp] theorem id_setActive (r : MediaRecord) (b : Bool) :
    (setActive r b).id = r.id := rfl

@[simp] theorem shape_setActive (r : MediaRecord) (b : Bool) :
    shape (setActive r b) = shape r := rfl

theorem updateManyActive_eq_map (k : String) (b : Bool) (db : Db) :
    updateManyActive k b db =
      db.map (fun r => if r.originalKey = k then setActive r b else r) := rfl

theorem updateById_eq_map (i : String) (b : Bool) (db : Db) :
    updateById i b db = db.map (fun r => if r.id = i then setActive r b else r) := rfl

@[simp] theorem keysOf_updateManyActive (k : String) (b : Bool) (db : Db) :
    keysOf (updateManyActive k b db) = keysOf db := by
  simp only [keysOf, updateManyActive_eq_map, List.map_map]
  refine List.map_congr_left (fun r _ => ?_)
  by_cases h : r.originalKey = k <;> simp [h, Function.comp]

@[simp] theorem idsOf_updateManyActive (k : String) (b : Bool) (db : Db) :
    idsOf (updateManyActive k b db) = idsOf db := by
  simp only [idsOf, updateManyActive_eq_map, List.map_map]
  refine List.map_congr_left (fun r _ => ?_)
  by_cases h : r.originalKey = k <;> simp [h, Function.comp]

@[simp] theorem shape_map_updateManyActive (k : String) (b : Bool) (db : Db) :
    (updateManyActive k b db).map shape = db.map shape := by
  simp only [updateManyActive_eq_map, List.map_map]
  refine List.map_congr_left (fun r _ => ?_)
  by_cases h : r.originalKey = k <;> simp [h, Function.comp]

@[simp] theorem shape_map_updateById (i : String) (b : Bool) (db : Db) :
    (updateById i b db).map shape = db.map shape := by
  simp only [updateById_eq_map, List.map_map]
  refine List.map_congr_left (fun r _ => ?_)
  by_cases h : r.id = i <;> simp [h, Function.comp]

theorem keyTaken_iff (db : Db) (k : String) :
    keyTaken db k = true ↔ k ∈ keysOf db := by
  unfold keyTaken keysOf
  rw [List.any_eq_true]
  simp only [List.mem_map, decide_eq_true_eq]

theorem idTaken_iff (db : Db) (i : String) :
    idTaken db i = true ↔ i ∈ idsOf db := by
  unfold idTaken idsOf
  rw [List.any_eq_true]
  simp only [List.mem_map, decide_eq_true_eq]

/-! ## Case-insensitivity of key classification (C10) -/

theorem toNat_ofNat_valid (n : Nat) (h : n.isValidChar) :
    (Char.ofNat n).toNat = n := by
  simp [Char.ofNat, h, Char.ofNatAux, Char.toNat, UInt32.toNat, UInt32.ofNatCore]

theorem lowerChar_idem (c : Char) : lowerChar (lowerChar c) = lowerChar c := by
  by_cases h : 65 ≤ c.toNat ∧ c.toNat ≤ 90
  · have hv : Nat.isValidChar (c.toNat + 32) := Or.inl (by omega)
    have ht : (Char.ofNat (c.toNat + 32)).toNat = c.toNat + 32 :=
      toNat_ofNat_valid _ hv
    simp only [lowerChar, if_pos h, ht]
    rw [if_neg (by omega)]
  · simp only [lowerChar, if_neg h]

theorem toLowerCase_idem (s : String) :
    toLowerCase (toLowerCase s) = toLowerCase s := by
  simp only [toLowerCase, List.map_map, Function.comp]
  congr 1
  exact List.map_congr_left (fun c _ => lowerChar_idem c)

/-- C10: media-type classification is case-insensitive in the extension:
classifying any key gives the same result as classifying its lowercased
form, and uppercase/mixed-case extensions such as `.JPG` and `.Mp4` are
accepted as IMAGE and VIDEO. -/
theorem getMediaType_case_insensitive :
    (∀ k : String, getMediaType k = getMediaType (toLowerCase k)) ∧
    getMediaType "photo.JPG" = some MediaType.IMAGE ∧
    getMediaType "clip.Mp4" = some MediaType.VIDEO := by
  refine ⟨fun k => ?_, by decide, by decide⟩
  simp only [getMediaType, toLowerCase_idem]

/-! ## Listing failure aborts the pass (C3) -/

/-- C3: if the object-store listing throws, `runSync` reports a non-ok
result with all three counts zero and returns the catalog unchanged — a
failed listing is never treated as an empty bucket. -/
theorem runSync_listing_failure_aborts (pfx cdn err : String)
    (draws : Nat → Nat → Nat) (now : Nat) (db : Db) :
    runSync true pfx cdn (Except.error err) draws now db =
      ({ ok := false, skipped := false, reason := some "Error during R2 Sync",
         newCount := 0, deactivatedCount := 0, reactivatedCount := 0 }, db) := rfl

/-! ## Webhook acknowledgment (C9) -/

/-- C9 counterexample: a request presenting the correct shared secret while
R2 sync is administratively disabled is answered with 503, not with the
200 acknowledgment the claim promises for every correct-secret request. -/
theorem webhook_ack_counterexample :
    (webhookHandler "s" "s" false "c" (Payload.simple "a.jpg" none)
      (fun _ _ => 0) 0 []).fst = HookResponse.unavailable503 := rfl

/-- C9 amended: for every webhook request presenting the correct shared
secret while R2 sync is enabled, the handler responds with the 200
acknowledgment, for every payload, catalog state and random stream — in
particular the response does not depend on the outcome of the processing,
whose failures are therefore never surfaced to the notification source. -/
theorem webhook_ack_when_enabled (s cdn : String) (p : Payload)
    (draws : Nat → Nat → Nat) (now : Nat) (db : Db) :
    (webhookHandler s s true cdn p draws now db).fst = HookResponse.ack200 := by
  simp [webhookHandler]

/-! ## The allocator's retry loop (C2, C7) -/

/-- The row committed by a successful insert. -/
def newRecordOf (data : CreateData) (newId : String) (now : Nat) : MediaRecord :=
  { id := newId, originalKey := data.originalKey, url := data.url,
    mediaType := data.mediaType.getD MediaType.IMAGE,
    sizeBytes := data.sizeBytes, contentType := data.contentType,
    isActive := true, createdAt := now }

theorem createLoop_succ (data : CreateData) (draws : Nat → Nat) (now : Nat)
    (db : Db) (attempts fuel : Nat) :
    createLoop data draws now db attempts (fuel+1) =
      match tryInsert db (generateId (draws attempts)) data now with
      | .ok (r, db') => (.ok r, db')
      | .error .uniqueId => createLoop data draws now db (attempts+1) fuel
      | .error .uniqueKey => (.error .duplicateKey, db) := rfl

theorem tryInsert_keyTaken (db : Db) (newId : String) (data : CreateData)
    (now : Nat) (h : keyTaken db data.originalKey = true) :
    tryInsert db newId data now = .error .uniqueKey := by
  simp [tryInsert, h]

theorem tryInsert_idTaken (db : Db) (newId : String) (data : CreateData)
    (now : Nat) (hk : keyTaken db data.originalKey = false)
    (hi : idTaken db newId = true) :
    tryInsert db newId data now = .error .uniqueId := by
  simp [tryInsert, hk, hi]

theorem tryInsert_free (db : Db) (newId : String) (data : CreateData)
    (now : Nat) (hk : keyTaken db data.originalKey = false)
    (hi : idTaken db newId = false) :
    tryInsert db newId data now =
      .ok (newRecordOf data newId now, db ++ [newRecordOf data newId now]) := by
  simp [tryInsert, hk, hi, newRecordOf]

theorem createLoop_spec (data : CreateData) (draws : Nat → Nat) (now : Nat)
    (db : Db) : ∀ (fuel attempts : Nat),
    (∃ r, createLoop data draws now db attempts fuel = (.ok r, db ++ [r]) ∧
       r.originalKey = data.originalKey ∧ r.isActive = true ∧
       keyTaken db data.originalKey = false ∧ idTaken db r.id = false) ∨
    (createLoop data draws now db attempts fuel = (.error .duplicateKey, db) ∧
       keyTaken db data.originalKey = true) ∨
    (createLoop data draws now db attempts fuel = (.error .exhausted, db) ∧
       ∀ i, attempts ≤ i → i < attempts + fuel →
         keyTaken db data.originalKey = false ∧
         idTaken db (generateId (draws i)) = true) := by
  intro fuel
  induction fuel with
  | zero =>
    intro attempts
    exact Or.inr (Or.inr ⟨rfl, fun i h1 h2 => by omega⟩)
  | succ n ih =>
    intro attempts
    rcases Bool.dichotomy (keyTaken db data.originalKey) with hk | hk
    · rcases Bool.dichotomy (idTaken db (generateId (draws attempts))) with hid | hid
      · refine Or.inl ⟨newRecordOf data (generateId (draws attempts)) now, ?_,
          rfl, rfl, hk, hid⟩
        rw [createLoop_succ, tryInsert_free db _ data now hk hid]
      · have hstep : createLoop data draws now db attempts (n+1) =
            createLoop data draws now db (attempts+1) n := by
          rw [createLoop_succ, tryInsert_idTaken db _ data now hk hid]
        rcases ih (attempts+1) with ⟨r, hr, h1, h2, h3, h4⟩ | ⟨hr, h1⟩ | ⟨hr, h1⟩
        · exact Or.inl ⟨r, by rw [hstep]; exact hr, h1, h2, h3, h4⟩
        · rw [hk] at h1; cases h1
        · refine Or.inr (Or.inr ⟨by rw [hstep]; exact hr, fun i hi1 hi2 => ?_⟩)
          rcases Nat.eq_or_lt_of_le hi1 with heq | hlt
          · exact ⟨hk, heq ▸ hid⟩
          · exact h1 i hlt (by omega)
    · refine Or.inr (Or.inl ⟨?_, hk⟩)
      rw [createLoop_succ, tryInsert_keyTaken db _ data now hk]

theorem createLoop_error_snd (data : CreateData) (draws : Nat → Nat)
    (now : Nat) (db : Db) (fuel attempts : Nat) (e : CreateErr)
    (h : (createLoop data draws now db attempts fuel).fst = .error e) :
    (createLoop data draws now db attempts fuel).snd = db := by
  rcases createLoop_spec data draws now db fuel attempts with
    ⟨r, hr, _⟩ | ⟨hr, _⟩ | ⟨hr, _⟩
  · rw [hr] at h; cases h
  · rw [hr]
  · rw [hr]

theorem createLoop_draws_local (data : CreateData) (now : Nat) (db : Db) :
    ∀ (fuel attempts : Nat) (draws draws2 : Nat → Nat),
    (∀ i, attempts ≤ i → i < attempts + fuel → draws i = draws2 i) →
    createLoop data draws now db attempts fuel =
      createLoop data draws2 now db attempts fuel := by
  intro fuel
  induction fuel with
  | zero => intro attempts draws draws2 _; rfl
  | succ n ih =>
    intro attempts draws draws2 hagree
    have h0 : draws attempts = draws2 attempts :=
      hagree attempts (Nat.le_refl _) (by omega)
    rw [createLoop_succ, createLoop_succ, h0,
      ih (attempts+1) draws draws2 (fun i h1 h2 => hagree i (by omega) (by omega))]

/-- C2: a storage-level uniqueness failure on the id column makes
`createImageRecord` retry with the next fresh draw; a uniqueness failure
on the originalKey column is propagated as the distinct, non-retryable
duplicate-source error; and every failing call leaves the catalog exactly
as it was (zero new rows). -/
theorem createImageRecord_collision_behavior (data : CreateData)
    (draws : Nat → Nat) (now : Nat) (db : Db) :
    (keyTaken db data.originalKey = true →
      createImageRecord data draws now db = (.error .duplicateKey, db)) ∧
    (keyTaken db data.originalKey = false →
      idTaken db (generateId (draws 0)) = true →
      createImageRecord data draws now db =
        createLoop data draws now db 1 (maxRetries - 1)) ∧
    (∀ e : CreateErr, (createImageRecord data draws now db).fst = .error e →
      (createImageRecord data draws now db).snd = db) := by
  refine ⟨fun hk => ?_, fun hk hid => ?_, fun e h => ?_⟩
  · show createLoop data draws now db 0 maxRetries = _
    rw [show maxRetries = 9 + 1 from rfl, createLoop_succ,
      tryInsert_keyTaken db _ data now hk]
  · show createLoop data draws now db 0 maxRetries = _
    rw [show maxRetries = 9 + 1 from rfl, createLoop_succ,
      tryInsert_idTaken db _ data now hk hid]
  · exact createLoop_error_snd data draws now db maxRetries 0 e h

/-- A concrete catalog row used by witnesses and counterexamples. -/
def recX : MediaRecord :=
  { id := "00000", originalKey := "x.jpg", url := "c/x.jpg",
    mediaType := MediaType.IMAGE, sizeBytes := none, contentType := none,
    isActive := true, createdAt := 0 }

/-- Create data whose key is already registered (same key as `recX`). -/
def dataX : CreateData := ⟨"x.jpg", "c/x.jpg", some MediaType.IMAGE, none, none⟩

/-- Create data for a fresh key. -/
def dataN : CreateData := ⟨"new.jpg", "c/new.jpg", some MediaType.IMAGE, none, none⟩

theorem createImageRecord_collision_behavior_witness :
    (keyTaken [recX] dataX.originalKey = true ∧
      createImageRecord dataX (fun _ => 0) 0 [recX] =
        (.error .duplicateKey, [recX])) ∧
    (keyTaken [recX] dataN.originalKey = false ∧
      idTaken [recX] (generateId 0) = true ∧
      createImageRecord dataN (fun _ => 0) 0 [recX] =
        createLoop dataN (fun _ => 0) 0 [recX] 1 (maxRetries - 1)) ∧
    ((createImageRecord dataX (fun _ => 0) 0 [recX]).fst =
        .error .duplicateKey ∧
      (createImageRecord dataX (fun _ => 0) 0 [recX]).snd = [recX]) :=
  ⟨⟨by decide,
    (createImageRecord_collision_behavior dataX (fun _ => 0) 0 [recX]).1
      (by decide)⟩,
   ⟨by decide, by decide,
    (createImageRecord_collision_behavior dataN (fun _ => 0) 0 [recX]).2.1
      (by decide) (by decide)⟩,
   ⟨rfl,
    (createImageRecord_collision_behavior dataX (fun _ => 0) 0 [recX]).2.2
      .duplicateKey rfl⟩⟩

/-- C7: the allocator makes at most `maxRetries = 10` insert attempts — its
result only depends on the first 10 draws — and terminates in one of three
ways: the single created row appended, the non-retryable duplicate-source
error, or, after all 10 attempts hit id collisions, the distinct
exhaustion error; in both error outcomes the catalog is unchanged. -/
theorem createImageRecord_attempt_bound (data : CreateData)
    (draws : Nat → Nat) (now : Nat) (db : Db) :
    ((∃ r, createImageRecord data draws now db = (.ok r, db ++ [r])) ∨
     createImageRecord data draws now db = (.error .duplicateKey, db) ∨
     (createImageRecord data draws now db = (.error .exhausted, db) ∧
       keyTaken db data.originalKey = false ∧
       ∀ i, i < maxRetries → idTaken db (generateId (draws i)) = true)) ∧
    (∀ draws2 : Nat → Nat, (∀ i, i < maxRetries → draws i = draws2 i) →
      createImageRecord data draws now db =
        createImageRecord data draws2 now db) := by
  constructor
  · rcases createLoop_spec data draws now db maxRetries 0 with
      ⟨r, hr, _⟩ | ⟨hr, _⟩ | ⟨hr, hall⟩
    · exact Or.inl ⟨r, hr⟩
    · exact Or.inr (Or.inl hr)
    · refine Or.inr (Or.inr ⟨hr, (hall 0 (Nat.zero_le _) (by decide)).1,
        fun i hi => (hall i (Nat.zero_le _) (by omega)).2⟩)
  · intro draws2 hagree
    exact createLoop_draws_local data now db maxRetries 0 draws draws2
      (fun i h1 h2 => hagree i (by omega))

theorem createImageRecord_attempt_bound_witness :
    createImageRecord dataN (fun i => i) 0 [recX] =
      createImageRecord dataN (fun i => if i < 10 then i else 99) 0 [recX] :=
  (createImageRecord_attempt_bound dataN (fun i => i) 0 [recX]).2
    (fun i => if i < 10 then i else 99)
    (fun i h => by simp [show i < 10 from h])

/-! ## Webhook key normalization (C8) -/

/-- The table after a processing step, whether it returned or threw. -/
def exceptDb (x : Except Db Db) : Db :=
  match x with
  | .ok d => d
  | .error d => d

theorem createImageRecord_spec (data : CreateData) (draws : Nat → Nat)
    (now : Nat) (db : Db) :
    (∃ r, createImageRecord data draws now db = (.ok r, db ++ [r]) ∧
       r.originalKey = data.originalKey ∧ r.isActive = true ∧
       keyTaken db data.originalKey = false ∧ idTaken db r.id = false) ∨
    (∃ e, createImageRecord data draws now db = (.error e, db)) := by
  rcases createLoop_spec data draws now db maxRetries 0 with
    ⟨r, hr, h⟩ | ⟨hr, _⟩ | ⟨hr, _⟩
  · exact Or.inl ⟨r, hr, h⟩
  · exact Or.inr ⟨_, hr⟩
  · exact Or.inr ⟨_, hr⟩

theorem findUniqueByKey_some (db : Db) (k : String) (ex : MediaRecord)
    (h : findUniqueByKey db k = some ex) : ex ∈ db ∧ ex.originalKey = k := by
  refine ⟨List.mem_of_find?_eq_some h, ?_⟩
  have := List.find?_some h
  simpa using this

theorem mem_updateManyActive (r : MediaRecord) (k : String) (b : Bool)
    (db : Db) (h : r ∈ updateManyActive k b db) :
    r ∈ db ∨ r.originalKey = k := by
  rw [updateManyActive_eq_map] at h
  rcases List.mem_map.1 h with ⟨x, hx, rfl⟩
  by_cases hxk : x.originalKey = k
  · right; simp [hxk]
  · left; simpa [hxk] using hx

theorem mem_updateById (r : MediaRecord) (i : String) (b : Bool) (db : Db)
    (h : r ∈ updateById i b db) :
    r ∈ db ∨ ∃ x, x ∈ db ∧ x.id = i ∧ r = setActive x b := by
  rw [updateById_eq_map] at h
  rcases List.mem_map.1 h with ⟨x, hx, rfl⟩
  by_cases hxi : x.id = i
  · right; exact ⟨x, hx, hxi, by simp [hxi]⟩
  · left; simpa [hxi] using hx

/-- Full branch analysis of `processKey`: it removes (deactivates) the
normalized key, is a no-op, reactivates the record found for the
normalized key, appends a freshly allocated record for the normalized key,
or throws leaving the table unchanged. -/
theorem processKey_cases (cdn raw : String) (ev : Option String)
    (draws : Nat → Nat) (now : Nat) (db : Db) :
    (∃ b, processKey cdn raw ev draws now db =
        .ok (updateManyActive (normalizeKey raw) b db)) ∨
    processKey cdn raw ev draws now db = .ok db ∨
    (∃ ex, findUniqueByKey db (normalizeKey raw) = some ex ∧
      ex.isActive = false ∧
      processKey cdn raw ev draws now db = .ok (updateById ex.id true db)) ∨
    (∃ r, processKey cdn raw ev draws now db = .ok (db ++ [r]) ∧
      r.originalKey = normalizeKey raw ∧ r.isActive = true ∧
      keyTaken db (normalizeKey raw) = false ∧ idTaken db r.id = false) ∨
    processKey cdn raw ev draws now db = .error db := by
  generalize hx : processKey cdn raw ev draws now db = x
  simp only [processKey] at hx
  split at hx
  · exact Or.inl ⟨false, hx.symm⟩
  · split at hx
    · exact Or.inr (Or.inl hx.symm)
    · split at hx
      · exact Or.inr (Or.inl hx.symm)
      · rename_i mt hmt
        split at hx
        · rename_i ex hex
          split at hx
          · rename_i hact
            exact Or.inr (Or.inr (Or.inl ⟨ex, hex, by simpa using hact, hx.symm⟩))
          · exact Or.inr (Or.inl hx.symm)
        · rename_i hnone
          rcases createImageRecord_spec
              ⟨normalizeKey raw, cdn ++ "/" ++ normalizeKey raw, some mt, none, none⟩
              draws now db with ⟨r, hr, hk, ha, hfree, hid⟩ | ⟨e, hr⟩
          · rw [hr] at hx
            exact Or.inr (Or.inr (Or.inr (Or.inl ⟨r, hx.symm, hk, ha, hfree, hid⟩)))
          · rw [hr] at hx
            exact Or.inr (Or.inr (Or.inr (Or.inr hx.symm)))

theorem nodup_ids_eq (db : Db) (hids : (idsOf db).Nodup) (x y : MediaRecord)
    (hx : x ∈ db) (hy : y ∈ db) (h : x.id = y.id) : x = y := by
  exact List.inj_on_of_nodup_map hids hx hy h

/-- C8: the webhook key is URL-decoded before any catalog comparison or
write: the payload key `d%2Bfoo.png` is stored with `originalKey` equal to
the decoded `d+foo.png`, a `+` in the raw key decodes to a space, and every
record `processKey` touches or creates that was not already in the table
carries the normalized key. -/
theorem webhook_key_normalized :
    ((processPayload "https://c"
        (Payload.simple "d%2Bfoo.png" (some "ObjectCreated"))
        (fun _ _ => 0) 0 []).map (fun r => r.originalKey) = ["d+foo.png"]) ∧
    normalizeKey "my+file%2B1.png" = "my file+1.png" ∧
    (∀ (cdn raw : String) (ev : Option String) (draws : Nat → Nat) (now : Nat)
        (db : Db) (r : MediaRecord), (idsOf db).Nodup →
      r ∈ exceptDb (processKey cdn raw ev draws now db) →
      r ∈ db ∨ r.originalKey = normalizeKey raw) := by
  refine ⟨by decide, by decide, ?_⟩
  intro cdn raw ev draws now db r hids hr
  rcases processKey_cases cdn raw ev draws now db with
    ⟨b, hp⟩ | hp | ⟨ex, hex, hact, hp⟩ | ⟨nr, hp, hk, _, _, _⟩ | hp
  · rw [hp] at hr
    exact mem_updateManyActive r _ b db hr
  · rw [hp] at hr
    exact Or.inl hr
  · rw [hp] at hr
    rcases mem_updateById r ex.id true db hr with h | ⟨x, hxmem, hxid, rfl⟩
    · exact Or.inl h
    · obtain ⟨hexmem, hexkey⟩ := findUniqueByKey_some db _ ex hex
      right
      rw [nodup_ids_eq db hids x ex hxmem hexmem hxid]
      simpa using hexkey
  · rw [hp] at hr
    rcases List.mem_append.1 hr with h | h
    · exact Or.inl h
    · right
      rw [List.mem_singleton.1 h]
      exact hk
  · rw [hp] at hr
    exact Or.inl hr

/-- The record created by the witness scenario of C8. -/
def recW : MediaRecord :=
  { id := "00000", originalKey := "d+foo.png", url := "https://c/d+foo.png",
    mediaType := MediaType.IMAGE, sizeBytes := none, contentType := none,
    isActive := true, createdAt := 0 }

theorem webhook_key_normalized_witness :
    (idsOf ([] : Db)).Nodup ∧
    recW ∈ exceptDb (processKey "https://c" "d%2Bfoo.png"
      (some "ObjectCreated") (fun _ => 0) 0 []) ∧
    (recW ∈ ([] : Db) ∨ recW.originalKey = normalizeKey "d%2Bfoo.png") :=
  ⟨by decide, by decide,
    webhook_key_normalized.2.2 "https://c" "d%2Bfoo.png" (some "ObjectCreated")
      (fun _ => 0) 0 [] recW (by decide) (by decide)⟩

/-! ## Frame preservation (C6) -/

/-- `e` extends `d` with new rows at the end, leaving every field of the
rows of `d` other than `isActive` (and their positions) unchanged. -/
def FramePres (d e : Db) : Prop := ∃ t, e.map shape = d.map shape ++ t

theorem framePres_refl (d : Db) : FramePres d d := ⟨[], by simp⟩

theorem framePres_trans {a b c : Db} (h1 : FramePres a b)
    (h2 : FramePres b c) : FramePres a c := by
  obtain ⟨t1, h1⟩ := h1
  obtain ⟨t2, h2⟩ := h2
  exact ⟨t1 ++ t2, by rw [h2, h1, List.append_assoc]⟩

theorem framePres_of_eq_shape {a b : Db} (h : b.map shape = a.map shape) :
    FramePres a b := ⟨[], by simp [h]⟩

theorem framePres_append (d l : Db) : FramePres d (d ++ l) :=
  ⟨l.map shape, by simp⟩

theorem framePres_updateManyActive (k : String) (b : Bool) (d : Db) :
    FramePres d (updateManyActive k b d) :=
  framePres_of_eq_shape (shape_map_updateManyActive k b d)

theorem framePres_updateById (i : String) (b : Bool) (d : Db) :
    FramePres d (updateById i b d) :=
  framePres_of_eq_shape (shape_map_updateById i b d)

theorem framePres_create (data : CreateData) (draws : Nat → Nat) (now : Nat)
    (db : Db) : FramePres db (createImageRecord data draws now db).snd := by
  rcases createImageRecord_spec data draws now db with ⟨r, hr, _⟩ | ⟨e, hr⟩
  · rw [hr]; exact framePres_append db [r]
  · rw [hr]; exact framePres_refl db

theorem framePres_processKey (cdn raw : String) (ev : Option String)
    (draws : Nat → Nat) (now : Nat) (db : Db) :
    FramePres db (exceptDb (processKey cdn raw ev draws now db)) := by
  rcases processKey_cases cdn raw ev draws now db with
    ⟨b, hp⟩ | hp | ⟨ex, _, _, hp⟩ | ⟨r, hp, _⟩ | hp <;> rw [hp]
  · exact framePres_updateManyActive _ b db
  · exact framePres_refl db
  · exact framePres_updateById ex.id true db
  · exact framePres_append db [r]
  · exact framePres_refl db

theorem framePres_processRecords (cdn : String) (draws : Nat → Nat → Nat)
    (now : Nat) :
    ∀ (recs : List (Option String × Option String)) (ci : Nat) (db : Db),
    FramePres db (exceptDb (processRecords cdn draws now recs ci db)) := by
  intro recs
  induction recs with
  | nil => intro ci db; exact framePres_refl db
  | cons q rest ih =>
    intro ci db
    rcases q with ⟨_ | k, ev⟩
    · exact ih ci db
    · by_cases hk : k = ""
      · simp only [processRecords, if_pos hk]
        exact ih ci db
      · simp only [processRecords, if_neg hk]
        cases hpk : processKey cdn k ev (draws ci) now db with
        | ok db' =>
          refine framePres_trans ?_ (ih (ci+1) db')
          have := framePres_processKey cdn k ev (draws ci) now db
          rwa [hpk] at this
        | error db' =>
          have := framePres_processKey cdn k ev (draws ci) now db
          rwa [hpk] at this

theorem processPayload_eq_exceptDb (cdn : String) (p : Payload)
    (draws : Nat → Nat → Nat) (now : Nat) (db : Db) :
    processPayload cdn p draws now db =
      exceptDb (processPayloadE cdn p draws now db) := by
  unfold processPayload exceptDb
  cases processPayloadE cdn p draws now db <;> rfl

theorem framePres_processPayload (cdn : String) (p : Payload)
    (draws : Nat → Nat → Nat) (now : Nat) (db : Db) :
    FramePres db (processPayload cdn p draws now db) := by
  rw [processPayload_eq_exceptDb]
  cases p with
  | simple k ev =>
    by_cases hk : k = ""
    · simp only [processPayloadE, if_pos hk]
      exact framePres_refl db
    · simp only [processPayloadE, if_neg hk]
      exact framePres_processKey cdn k ev (draws 0) now db
  | batched recs => exact framePres_processRecords cdn draws now recs 0 db
  | unknown => exact framePres_refl db

/-- The table carried by the result of the add/reactivate walk. -/
def addDb (x : Except Db AddState) : Db :=
  match x with
  | .ok st => st.db
  | .error d => d

theorem framePres_syncAddLoop (pfx cdn : String) (snap : List (String × Bool))
    (snapKeys : List String) (draws : Nat → Nat → Nat) (now : Nat) :
    ∀ (objs : List RObj) (st : AddState),
    FramePres st.db (addDb (syncAddLoop pfx cdn snap snapKeys draws now objs st)) := by
  intro objs
  induction objs with
  | nil => intro st; exact framePres_refl st.db
  | cons o rest ih =>
    intro st
    simp only [syncAddLoop]
    cases objKey? pfx o with
    | none => exact ih st
    | some k =>
      simp only []
      by_cases hc : snapKeys.contains k
      · simp only [hc, if_true]
        cases hf : snap.find? (fun p => p.fst = k) with
        | none => exact ih st
        | some p =>
          by_cases hp : p.snd = false
          · simp only [hp, if_true]
            refine framePres_trans (framePres_updateManyActive k true st.db) ?_
            exact ih _
          · simp only [hp, if_false]
            exact ih st
      · simp only [hc, if_false]
        rcases createImageRecord_spec
            ⟨k, cdn ++ "/" ++ k, getMediaType k, o.size, none⟩
            (draws st.callIdx) now st.db with ⟨r, hr, _⟩ | ⟨e, hr⟩
        · rw [hr]
          refine framePres_trans (framePres_append st.db [r]) ?_
          exact ih _
        · rw [hr]
          exact framePres_refl st.db

theorem framePres_deactLoop (r2Keys : List String) :
    ∀ (entries : List (String × Bool)) (db : Db) (n : Nat),
    FramePres db (deactLoop r2Keys entries db n).fst := by
  intro entries
  induction entries with
  | nil => intro db n; exact framePres_refl db
  | cons p rest ih =>
    intro db n
    simp only [deactLoop]
    by_cases hc : ¬ r2Keys.contains p.fst ∧ p.snd
    · simp only [if_pos hc]
      exact framePres_trans (framePres_updateManyActive p.fst false db) (ih _ _)
    · simp only [if_neg hc]
      exact ih db n

theorem framePres_runSync (enabled : Bool) (pfx cdn : String)
    (listing : Except String (List RObj)) (draws : Nat → Nat → Nat)
    (now : Nat) (db : Db) :
    FramePres db (runSync enabled pfx cdn listing draws now db).snd := by
  cases enabled with
  | false => exact framePres_refl db
  | true =>
    cases listing with
    | error e => exact framePres_refl db
    | ok objs =>
      show FramePres db (runSync true pfx cdn (.ok objs) draws now db).snd
      unfold runSync
      simp only []
      cases hadd : syncAddLoop pfx cdn (snapshotOf db)
          (db.map (fun r => r.originalKey)) draws now objs ⟨db, 0, 0, 0⟩ with
      | error d =>
        have := framePres_syncAddLoop pfx cdn (snapshotOf db)
          (db.map (fun r => r.originalKey)) draws now objs ⟨db, 0, 0, 0⟩
        rw [hadd] at this
        exact this
      | ok st =>
        have h1 := framePres_syncAddLoop pfx cdn (snapshotOf db)
          (db.map (fun r => r.originalKey)) draws now objs ⟨db, 0, 0, 0⟩
        rw [hadd] at h1
        exact framePres_trans h1
          (framePres_deactLoop (observedKeys pfx objs) (snapshotOf db) st.db 0)

theorem framePres_webhookHandler (s ps : String) (enabled : Bool)
    (cdn : String) (p : Payload) (draws : Nat → Nat → Nat) (now : Nat)
    (db : Db) :
    FramePres db (webhookHandler s ps enabled cdn p draws now db).snd := by
  unfold webhookHandler
  by_cases hs : s ≠ ps
  · simp only [if_pos hs]; exact framePres_refl db
  · simp only [if_neg hs]
    cases enabled with
    | false => exact framePres_refl db
    | true =>
      exact framePres_processPayload cdn p draws now db

/-- C6: across any sequence of reconciliation passes and webhook
deliveries, every pre-existing catalog record keeps its position and all
fields other than `isActive` — its `id`, `originalKey`, `url`,
`mediaType`, `sizeBytes`, `contentType` and `createdAt` are unchanged
through any number of deactivate/reactivate cycles; operations only toggle
`isActive` and append new rows. -/
theorem ops_preserve_record_shape (ops : List Op) (db : Db) :
    ∃ t, (applyOps ops db).map shape = db.map shape ++ t := by
  induction ops generalizing db with
  | nil => exact ⟨[], by simp [applyOps]⟩
  | cons op rest ih =>
    have hstep : FramePres db (applyOp db op) := by
      cases op with
      | sync e pfx cdn listing draws now =>
        exact framePres_runSync e pfx cdn listing draws now db
      | hook s ps e cdn p draws now =>
        exact framePres_webhookHandler s ps e cdn p draws now db
    have hrest : FramePres (applyOp db op) (applyOps rest (applyOp db op)) :=
      ih (applyOp db op)
    exact framePres_trans hstep hrest

/-! ## Replay abstraction for webhook idempotence (C5) -/

/-- The effect of one webhook event on the `isActive` flag of records whose
`originalKey` is the event's normalized key: `some false` for a removal,
`some true` for a creation of a supported key, `none` when the event is a
no-op (unsupported type, or an event name that is neither). -/
def effEvent (key : String) (ev : Option String) : Option Bool :=
  let isRemoved :=
    match ev with
    | none => false
    | some e => strIncludes e "ObjectRemoved"
  let isCreate :=
    match ev with
    | none => true
    | some e => e = "" || strIncludes e "ObjectCreated"
  if isRemoved then some false
  else if !isCreate then none
  else
    match getMediaType key with
    | none => none
    | some _ => some true

/-- The effect of one raw `Records` entry on the key `k` (skipping entries
with a missing or empty key, resolving the normalized key). -/
def effOf (q : Option String × Option String) (k : String) : Option Bool :=
  match q.fst with
  | none => none
  | some raw =>
    if raw = "" then none
    else if normalizeKey raw = k then effEvent k q.snd else none

/-- The last effective override of key `k` after replaying `L`. -/
def lastEff (L : List (Option String × Option String)) (k : String) :
    Option Bool :=
  L.foldl (fun acc q => match effOf q k with | some b => some b | none => acc)
    none

/-- Replaying `L` over a table: each record's `isActive` becomes the last
effective override of its key, if there is one. -/
def applyReplay (L : List (Option String × Option String)) (e : Db) : Db :=
  e.map (fun r =>
    match lastEff L r.originalKey with
    | some b => setActive r b
    | none => r)

theorem lastEff_foldl_acc (k : String) :
    ∀ (L : List (Option String × Option String)) (acc : Option Bool),
    L.foldl (fun a q => match effOf q k with | some b => some b | none => a)
        acc =
      match lastEff L k with
      | some b => some b
      | none => acc := by
  intro L
  induction L with
  | nil => intro acc; rfl
  | cons p L ih =>
    intro acc
    rw [List.foldl_cons, ih]
    show _ = match lastEff (p :: L) k with
      | some b => some b
      | none => acc
    have hcons : lastEff (p :: L) k =
        L.foldl (fun a q => match effOf q k with | some b => some b | none => a)
          (match effOf p k with | some b => some b | none => none) := rfl
    rw [hcons, ih]
    cases lastEff L k with
    | some b => rfl
    | none => cases effOf p k with
      | some b => rfl
      | none => rfl

theorem lastEff_cons (q : Option String × Option String)
    (L : List (Option String × Option String)) (k : String) :
    lastEff (q :: L) k =
      match lastEff L k with
      | some b => some b
      | none => effOf q k := by
  have hcons : lastEff (q :: L) k =
      L.foldl (fun a p => match effOf p k with | some b => some b | none => a)
        (match effOf q k with | some b => some b | none => none) := rfl
  rw [hcons, lastEff_foldl_acc]
  cases lastEff L k with
  | some b => rfl
  | none => cases effOf q k with
    | some b => rfl
    | none => rfl

theorem applyReplay_nil (e : Db) : applyReplay [] e = e := by
  unfold applyReplay
  have : ∀ r : MediaRecord, (match lastEff [] r.originalKey with
      | some b => setActive r b
      | none => r) = r := fun r => rfl
  simp only [this, List.map_id']

theorem applyReplay_cons_none (q : Option String × Option String)
    (L : List (Option String × Option String)) (e : Db)
    (h : ∀ k, effOf q k = none) :
    applyReplay (q :: L) e = applyReplay L e := by
  unfold applyReplay
  refine List.map_congr_left (fun r _ => ?_)
  rw [lastEff_cons, h]
  cases lastEff L r.originalKey with
  | some b => rfl
  | none => rfl

theorem applyReplay_cons_eff (q : Option String × Option String)
    (L : List (Option String × Option String)) (e : Db) (k : String) (b : Bool)
    (hq : ∀ k', effOf q k' = if k' = k then some b else none) :
    applyReplay (q :: L) e = applyReplay L (updateManyActive k b e) := by
  unfold applyReplay
  rw [updateManyActive_eq_map, List.map_map]
  refine List.map_congr_left (fun r _ => ?_)
  simp only [Function.comp]
  rw [lastEff_cons, hq]
  by_cases hrk : r.originalKey = k
  · rw [if_pos hrk, if_pos hrk]
    simp only [originalKey_setActive]
    cases h : lastEff L r.originalKey with
    | some c => simp only [h, setActive_setActive]
    | none => simp only [h]
  · rw [if_neg hrk, if_neg hrk]
    cases h : lastEff L r.originalKey with
    | some c => simp only [h]
    | none => simp only [h]

theorem nodup_keys_eq (db : Db) (hkeys : (keysOf db).Nodup)
    (x y : MediaRecord) (hx : x ∈ db) (hy : y ∈ db)
    (h : x.originalKey = y.originalKey) : x = y :=
  List.inj_on_of_nodup_map hkeys hx hy h

theorem updateManyActive_noop (k : String) (b : Bool) (db : Db)
    (h : ∀ x ∈ db, x.originalKey = k → x.isActive = b) :
    updateManyActive k b db = db := by
  rw [updateManyActive_eq_map]
  have : db.map (fun r => if r.originalKey = k then setActive r b else r) =
      db.map (fun r => r) := by
    refine List.map_congr_left (fun r hr => ?_)
    by_cases hrk : r.originalKey = k
    · rw [if_pos hrk]
      exact setActive_self r b (h r hr hrk)
    · rw [if_neg hrk]
  simpa using this

theorem keyTaken_eq_of_keysOf {a b : Db} (h : keysOf a = keysOf b)
    (k : String) : keyTaken a k = keyTaken b k := by
  have ha := keyTaken_iff a k
  have hb := keyTaken_iff b k
  rw [h] at ha
  by_cases hx : k ∈ keysOf b
  · rw [ha.2 hx, hb.2 hx]
  · cases hA : keyTaken a k with
    | false =>
      cases hB : keyTaken b k with
      | false => rfl
      | true => exact absurd (hb.1 hB) hx
    | true => exact absurd (ha.1 hA) hx

theorem keyTaken_updateManyActive (k' : String) (b : Bool) (db : Db)
    (k : String) :
    keyTaken (updateManyActive k' b db) k = keyTaken db k :=
  keyTaken_eq_of_keysOf (keysOf_updateManyActive k' b db) k

theorem keyTaken_append (db l : Db) (k : String) :
    keyTaken (db ++ l) k = (keyTaken db k || keyTaken l k) := by
  unfold keyTaken
  exact List.any_append

theorem findUniqueByKey_isSome (db : Db) (k : String)
    (h : keyTaken db k = true) : ∃ ex, findUniqueByKey db k = some ex := by
  unfold keyTaken at h
  rw [List.any_eq_true] at h
  obtain ⟨x, hx, hpx⟩ := h
  have : (db.find? (fun r => r.originalKey = k)).isSome := by
    rw [List.find?_isSome]
    exact ⟨x, hx, hpx⟩
  exact Option.isSome_iff_exists.1 this

theorem findUniqueByKey_none (db : Db) (k : String)
    (h : keyTaken db k = false) : findUniqueByKey db k = none := by
  unfold findUniqueByKey
  rw [List.find?_eq_none]
  intro x hx
  unfold keyTaken at h
  intro hpx
  have : db.any (fun r => r.originalKey = k) = true :=
    List.any_eq_true.2 ⟨x, hx, hpx⟩
  rw [h] at this
  cases this

/-- With unique keys and ids, the single-row reactivation
(`update({where: {id}})`) performed for the record found under a key
coincides with the key-based bulk update. -/
theorem updateById_eq_updateManyActive (db : Db) (k : String)
    (ex : MediaRecord) (hkeys : (keysOf db).Nodup) (hids : (idsOf db).Nodup)
    (hex : findUniqueByKey db k = some ex) (b : Bool) :
    updateById ex.id b db = updateManyActive k b db := by
  obtain ⟨hmem, hkey⟩ := findUniqueByKey_some db k ex hex
  rw [updateById_eq_map, updateManyActive_eq_map]
  refine List.map_congr_left (fun x hx => ?_)
  by_cases hid : x.id = ex.id
  · have hxe : x = ex := nodup_ids_eq db hids x ex hx hmem hid
    rw [if_pos hid, if_pos (by rw [hxe]; exact hkey)]
  · rw [if_neg hid]
    by_cases hxk : x.originalKey = k
    · have hxe : x = ex :=
        nodup_keys_eq db hkeys x ex hx hmem (by rw [hxk, hkey])
      exact absurd (by rw [hxe]) hid
    · rw [if_neg hxk]

/-- Strengthened membership for `updateManyActive`. -/
theorem mem_updateManyActive' (r : MediaRecord) (k : String) (b : Bool)
    (db : Db) (h : r ∈ updateManyActive k b db) :
    r ∈ db ∨ (r.originalKey = k ∧ r.isActive = b ∧
      ∃ x, x ∈ db ∧ r = setActive x b) := by
  rw [updateManyActive_eq_map] at h
  rcases List.mem_map.1 h with ⟨x, hx, rfl⟩
  by_cases hxk : x.originalKey = k
  · right
    rw [if_pos hxk]
    exact ⟨hxk, rfl, x, hx, rfl⟩
  · left
    simpa [hxk] using hx

/-- The create/reactivate branch of `processKey` (reached when the event is
an effective creation). -/
def createBranch (cdn key : String) (draws : Nat → Nat) (now : Nat)
    (db : Db) : Except Db Db :=
  match getMediaType key with
  | none => .ok db
  | some mt =>
    match findUniqueByKey db key with
    | some existing =>
      if existing.isActive = false then .ok (updateById existing.id true db)
      else .ok db
    | none =>
      match createImageRecord
          ⟨key, cdn ++ "/" ++ key, some mt, none, none⟩ draws now db with
      | (.ok _, db') => .ok db'
      | (.error _, db') => .error db'

theorem processKey_eq (cdn raw : String) (ev : Option String)
    (draws : Nat → Nat) (now : Nat) (db : Db) :
    processKey cdn raw ev draws now db =
      if (match ev with
          | none => false
          | some e => strIncludes e "ObjectRemoved") then
        .ok (updateManyActive (normalizeKey raw) false db)
      else if !(match ev with
          | none => true
          | some e => e = "" || strIncludes e "ObjectCreated") then .ok db
      else createBranch cdn (normalizeKey raw) draws now db := rfl

theorem effEvent_eq (key : String) (ev : Option String) :
    effEvent key ev =
      if (match ev with
          | none => false
          | some e => strIncludes e "ObjectRemoved") then some false
      else if !(match ev with
          | none => true
          | some e => e = "" || strIncludes e "ObjectCreated") then none
      else
        match getMediaType key with
        | none => none
        | some _ => some true := rfl

theorem createBranch_existing (cdn key : String) (draws : Nat → Nat)
    (now : Nat) (db : Db) (mt : MediaType)
    (hkeys : (keysOf db).Nodup) (hids : (idsOf db).Nodup)
    (hmt : getMediaType key = some mt) (htaken : keyTaken db key = true) :
    createBranch cdn key draws now db =
      .ok (updateManyActive key true db) := by
  obtain ⟨ex, hex⟩ := findUniqueByKey_isSome db key htaken
  unfold createBranch
  simp only [hmt, hex]
  obtain ⟨hmem, hkey⟩ := findUniqueByKey_some db key ex hex
  by_cases hact : ex.isActive = false
  · rw [if_pos hact, updateById_eq_updateManyActive db key ex hkeys hids hex]
  · rw [if_neg hact]
    rw [updateManyActive_noop key true db]
    intro x hx hxk
    have hxe : x = ex := nodup_keys_eq db hkeys x ex hx hmem (by rw [hxk, hkey])
    rw [hxe]
    cases h : ex.isActive with
    | false => exact absurd h hact
    | true => rfl

theorem createBranch_new (cdn key : String) (draws : Nat → Nat) (now : Nat)
    (db : Db) (mt : MediaType) (hmt : getMediaType key = some mt)
    (hfree : keyTaken db key = false) :
    createBranch cdn key draws now db =
      (match createImageRecord
          ⟨key, cdn ++ "/" ++ key, some mt, none, none⟩ draws now db with
       | (.ok _, db') => Except.ok db'
       | (.error _, db') => Except.error db') := by
  unfold createBranch
  simp only [hmt, findUniqueByKey_none db key hfree]

/-- A no-op event (`effEvent = none`) leaves the table untouched. -/
theorem processKey_of_eff_none (cdn raw : String) (ev : Option String)
    (draws : Nat → Nat) (now : Nat) (db : Db)
    (h : effEvent (normalizeKey raw) ev = none) :
    processKey cdn raw ev draws now db = .ok db := by
  rw [effEvent_eq] at h
  rw [processKey_eq]
  split
  · rename_i hR
    rw [if_pos hR] at h
    cases h
  · rename_i hR
    rw [if_neg hR] at h
    split
    · rfl
    · rename_i hC
      rw [if_neg hC] at h
      cases hmt : getMediaType (normalizeKey raw) with
      | none => simp only [createBranch, hmt]
      | some mt => simp [hmt] at h

/-- A removal event is the key-based deactivation. -/
theorem processKey_of_eff_false (cdn raw : String) (ev : Option String)
    (draws : Nat → Nat) (now : Nat) (db : Db)
    (h : effEvent (normalizeKey raw) ev = some false) :
    processKey cdn raw ev draws now db =
      .ok (updateManyActive (normalizeKey raw) false db) := by
  rw [effEvent_eq] at h
  rw [processKey_eq]
  split
  · rfl
  · rename_i hR
    rw [if_neg hR] at h
    split
    · rename_i hC
      rw [if_pos hC] at h
      cases h
    · rename_i hC
      rw [if_neg hC] at h
      cases hmt : getMediaType (normalizeKey raw) with
      | none => simp [hmt] at h
      | some mt => simp [hmt] at h

/-- An effective creation for an already-registered key is the key-based
reactivation (with unique keys and ids). -/
theorem processKey_of_eff_true_taken (cdn raw : String) (ev : Option String)
    (draws : Nat → Nat) (now : Nat) (db : Db)
    (hkeys : (keysOf db).Nodup) (hids : (idsOf db).Nodup)
    (h : effEvent (normalizeKey raw) ev = some true)
    (ht : keyTaken db (normalizeKey raw) = true) :
    processKey cdn raw ev draws now db =
      .ok (updateManyActive (normalizeKey raw) true db) := by
  rw [effEvent_eq] at h
  rw [processKey_eq]
  split
  · rename_i hR
    rw [if_pos hR] at h
    cases h
  · rename_i hR
    rw [if_neg hR] at h
    split
    · rename_i hC
      rw [if_pos hC] at h
      cases h
    · rename_i hC
      rw [if_neg hC] at h
      cases hmt : getMediaType (normalizeKey raw) with
      | none => simp [hmt] at h
      | some mt =>
        exact createBranch_existing cdn _ draws now db mt hkeys hids hmt ht

/-- An effective creation for an unregistered key runs the allocator. -/
theorem processKey_of_eff_true_free (cdn raw : String) (ev : Option String)
    (draws : Nat → Nat) (now : Nat) (db : Db)
    (h : effEvent (normalizeKey raw) ev = some true)
    (hf : keyTaken db (normalizeKey raw) = false) :
    ∃ mt, getMediaType (normalizeKey raw) = some mt ∧
      processKey cdn raw ev draws now db =
        (match createImageRecord
            ⟨normalizeKey raw, cdn ++ "/" ++ normalizeKey raw, some mt,
             none, none⟩ draws now db with
         | (.ok _, db') => Except.ok db'
         | (.error _, db') => Except.error db') := by
  rw [effEvent_eq] at h
  rw [processKey_eq]
  split
  · rename_i hR
    rw [if_pos hR] at h
    cases h
  · rename_i hR
    rw [if_neg hR] at h
    split
    · rename_i hC
      rw [if_pos hC] at h
      cases h
    · rename_i hC
      rw [if_neg hC] at h
      cases hmt : getMediaType (normalizeKey raw) with
      | none => simp [hmt] at h
      | some mt =>
        exact ⟨mt, rfl, createBranch_new cdn _ draws now db mt hmt hf⟩

theorem isActive_of_mem_updateManyActive (r : MediaRecord) (k : String)
    (b : Bool) (db : Db) (h : r ∈ updateManyActive k b db)
    (hk : r.originalKey = k) : r.isActive = b := by
  rw [updateManyActive_eq_map] at h
  rcases List.mem_map.1 h with ⟨x, hx, hr⟩
  by_cases hxk : x.originalKey = k
  · rw [if_pos hxk] at hr
    rw [← hr]
    rfl
  · rw [if_neg hxk] at hr
    rw [← hr] at hk
    exact absurd hk hxk

theorem not_mem_keysOf_of_keyTaken_false (db : Db) (k : String)
    (h : keyTaken db k = false) : k ∉ keysOf db := by
  intro hmem
  rw [(keyTaken_iff db k).2 hmem] at h
  cases h

theorem mem_keysOf_of_keyTaken (db : Db) (k : String)
    (h : keyTaken db k = true) : k ∈ keysOf db := (keyTaken_iff db k).1 h

theorem keysOf_append_nodup (db : Db) (r : MediaRecord)
    (hkeys : (keysOf db).Nodup) (hfree : keyTaken db r.originalKey = false) :
    (keysOf (db ++ [r])).Nodup := by
  unfold keysOf
  rw [List.map_append]
  rw [List.nodup_append]
  refine ⟨hkeys, List.nodup_singleton _, ?_⟩
  intro a ha hb
  rw [List.map_singleton, List.mem_singleton] at hb
  subst hb
  exact not_mem_keysOf_of_keyTaken_false db _ hfree ha

theorem idsOf_append_nodup (db : Db) (r : MediaRecord)
    (hids : (idsOf db).Nodup) (hfree : idTaken db r.id = false) :
    (idsOf (db ++ [r])).Nodup := by
  unfold idsOf
  rw [List.map_append]
  rw [List.nodup_append]
  refine ⟨hids, List.nodup_singleton _, ?_⟩
  intro a ha hb
  rw [List.map_singleton, List.mem_singleton] at hb
  subst hb
  rw [(idTaken_iff db r.id).2 ha] at hfree
  cases hfree

theorem keyTaken_append_right (db : Db) (r : MediaRecord) (k : String)
    (h : keyTaken db k = true) : keyTaken (db ++ [r]) k = true := by
  rw [keyTaken_append, h, Bool.true_or]

theorem keyTaken_append_new (db : Db) (r : MediaRecord) :
    keyTaken (db ++ [r]) r.originalKey = true := by
  rw [keyTaken_append]
  have : keyTaken [r] r.originalKey = true := by
    unfold keyTaken
    simp
  rw [this, Bool.or_true]

/-- Step equations for `processRecords`. -/
theorem processRecords_cons_none (cdn : String) (draws : Nat → Nat → Nat)
    (now : Nat) (ev : Option String)
    (rest : List (Option String × Option String)) (ci : Nat) (e : Db) :
    processRecords cdn draws now ((none, ev) :: rest) ci e =
      processRecords cdn draws now rest ci e := rfl

theorem processRecords_cons_empty (cdn : String) (draws : Nat → Nat → Nat)
    (now : Nat) (ev : Option String)
    (rest : List (Option String × Option String)) (ci : Nat) (e : Db) :
    processRecords cdn draws now ((some "", ev) :: rest) ci e =
      processRecords cdn draws now rest ci e := rfl

theorem processRecords_cons (cdn : String) (draws : Nat → Nat → Nat)
    (now : Nat) (raw : String) (ev : Option String)
    (rest : List (Option String × Option String)) (ci : Nat) (e : Db)
    (hraw : raw ≠ "") :
    processRecords cdn draws now ((some raw, ev) :: rest) ci e =
      (match processKey cdn raw ev (draws ci) now e with
       | .ok db' => processRecords cdn draws now rest (ci + 1) db'
       | .error db' => .error db') := by
  simp only [processRecords, if_neg hraw]

theorem effOf_eval (raw : String) (ev : Option String) (k' : String)
    (hraw : raw ≠ "") :
    effOf (some raw, ev) k' =
      if k' = normalizeKey raw then effEvent (normalizeKey raw) ev
      else none := by
  show (if raw = "" then none
    else if normalizeKey raw = k' then effEvent k' ev else none) = _
  rw [if_neg hraw]
  by_cases hkk : normalizeKey raw = k'
  · rw [if_pos hkk, if_pos hkk.symm, hkk]
  · rw [if_neg hkk, if_neg (fun hh => hkk hh.symm)]

/-- Replay fixpoint: when every effective creation in `R` targets a key
already present in the (unique-keys, unique-ids) table `e`, processing `R`
never allocates, never throws, and produces exactly the replay of `R`
over `e`. -/
theorem processRecords_noop (cdn : String) (draws : Nat → Nat → Nat)
    (now : Nat) :
    ∀ (R : List (Option String × Option String)) (ci : Nat) (e : Db),
    (keysOf e).Nodup → (idsOf e).Nodup →
    (∀ q ∈ R, ∀ k, effOf q k = some true → keyTaken e k = true) →
    processRecords cdn draws now R ci e = .ok (applyReplay R e) := by
  intro R
  induction R with
  | nil =>
    intro ci e _ _ _
    rw [applyReplay_nil]
    rfl
  | cons q rest ih =>
    intro ci e hkeys hids hact
    have hact_rest : ∀ q' ∈ rest, ∀ k, effOf q' k = some true →
        keyTaken e k = true :=
      fun q' hq' => hact q' (List.mem_cons_of_mem _ hq')
    rcases q with ⟨_ | raw, ev⟩
    · rw [processRecords_cons_none,
        applyReplay_cons_none (none, ev) rest e (fun k => rfl)]
      exact ih ci e hkeys hids hact_rest
    · by_cases hraw : raw = ""
      · subst hraw
        rw [processRecords_cons_empty,
          applyReplay_cons_none (some "", ev) rest e (fun k => rfl)]
        exact ih ci e hkeys hids hact_rest
      · rw [processRecords_cons cdn draws now raw ev rest ci e hraw]
        cases heff : effEvent (normalizeKey raw) ev with
        | none =>
          rw [processKey_of_eff_none cdn raw ev (draws ci) now e heff]
          show processRecords cdn draws now rest (ci+1) e = _
          rw [applyReplay_cons_none _ _ _
            (fun k' => by rw [effOf_eval raw ev k' hraw, heff]; split <;> rfl)]
          exact ih (ci+1) e hkeys hids hact_rest
        | some b =>
          have hq : ∀ k', effOf (some raw, ev) k' =
              if k' = normalizeKey raw then some b else none := by
            intro k'
            rw [effOf_eval raw ev k' hraw, heff]
          have hstep : processKey cdn raw ev (draws ci) now e =
              .ok (updateManyActive (normalizeKey raw) b e) := by
            cases b with
            | false => exact processKey_of_eff_false cdn raw ev (draws ci) now e heff
            | true =>
              refine processKey_of_eff_true_taken cdn raw ev (draws ci) now e
                hkeys hids heff ?_
              refine hact (some raw, ev) (List.mem_cons_self _ _)
                (normalizeKey raw) ?_
              rw [hq]
              rw [if_pos rfl]
          rw [hstep]
          show processRecords cdn draws now rest (ci+1)
              (updateManyActive (normalizeKey raw) b e) = _
          rw [applyReplay_cons_eff _ _ _ _ _ hq]
          refine ih (ci+1) _ ?_ ?_ ?_
          · rw [keysOf_updateManyActive]; exact hkeys
          · rw [idsOf_updateManyActive]; exact hids
          · intro q' hq' k hk
            rw [keyTaken_updateManyActive]
            exact hact_rest q' hq' k hk

/-- The facts the first processing pass establishes about its result:
unique keys/ids, key-monotonicity, every effective creation's key
registered, every record's flag agreeing with the last effective event for
its key, and records untouched by events being old records. -/
def CharOut (R : List (Option String × Option String)) (e e' : Db) : Prop :=
  (keysOf e').Nodup ∧ (idsOf e').Nodup ∧
  (∀ k, keyTaken e k = true → keyTaken e' k = true) ∧
  (∀ q ∈ R, ∀ k, effOf q k = some true → keyTaken e' k = true) ∧
  (∀ r ∈ e', ∀ b, lastEff R r.originalKey = some b → r.isActive = b) ∧
  (∀ r ∈ e', lastEff R r.originalKey = none → r ∈ e)

theorem lastEff_cons_noeff (q : Option String × Option String)
    (L : List (Option String × Option String)) (k : String)
    (h : effOf q k = none) : lastEff (q :: L) k = lastEff L k := by
  rw [lastEff_cons, h]
  cases lastEff L k <;> rfl

theorem charOut_skip (q : Option String × Option String)
    (rest : List (Option String × Option String)) (e e' : Db)
    (hq : ∀ k, effOf q k = none) (h : CharOut rest e e') :
    CharOut (q :: rest) e e' := by
  obtain ⟨h1, h2, h3, h4, h5, h6⟩ := h
  refine ⟨h1, h2, h3, ?_, ?_, ?_⟩
  · intro q' hq' k hk
    rcases List.mem_cons.1 hq' with rfl | hmem
    · rw [hq k] at hk; cases hk
    · exact h4 q' hmem k hk
  · intro r hr b hb
    rw [lastEff_cons_noeff q rest _ (hq r.originalKey)] at hb
    exact h5 r hr b hb
  · intro r hr hn
    rw [lastEff_cons_noeff q rest _ (hq r.originalKey)] at hn
    exact h6 r hr hn

theorem charOut_update (q : Option String × Option String)
    (rest : List (Option String × Option String)) (e e' : Db) (nk : String)
    (b : Bool)
    (hq : ∀ k', effOf q k' = if k' = nk then some b else none)
    (htk : b = true → keyTaken e nk = true)
    (h : CharOut rest (updateManyActive nk b e) e') :
    CharOut (q :: rest) e e' := by
  obtain ⟨h1, h2, h3, h4, h5, h6⟩ := h
  refine ⟨h1, h2, ?_, ?_, ?_, ?_⟩
  · intro k hk
    refine h3 k ?_
    rw [keyTaken_updateManyActive]
    exact hk
  · intro q' hq' k hk
    rcases List.mem_cons.1 hq' with rfl | hmem
    · rw [hq k] at hk
      by_cases hkk : k = nk
      · rw [if_pos hkk] at hk
        have hb : b = true := Option.some.inj hk
        subst hkk
        refine h3 k ?_
        rw [keyTaken_updateManyActive]
        exact htk hb
      · rw [if_neg hkk] at hk
        cases hk
    · exact h4 q' hmem k hk
  · intro r hr b' hb'
    rw [lastEff_cons] at hb'
    cases hL : lastEff rest r.originalKey with
    | some c =>
      rw [hL] at hb'
      have : c = b' := Option.some.inj hb'
      subst this
      exact h5 r hr c hL
    | none =>
      rw [hL] at hb'
      rw [hq r.originalKey] at hb'
      by_cases hkk : r.originalKey = nk
      · rw [if_pos hkk] at hb'
        have hb : b = b' := Option.some.inj hb'
        subst hb
        exact isActive_of_mem_updateManyActive r nk b e (h6 r hr hL) hkk
      · rw [if_neg hkk] at hb'
        cases hb'
  · intro r hr hn
    rw [lastEff_cons] at hn
    cases hL : lastEff rest r.originalKey with
    | some c => rw [hL] at hn; cases hn
    | none =>
      rw [hL] at hn
      rw [hq r.originalKey] at hn
      by_cases hkk : r.originalKey = nk
      · rw [if_pos hkk] at hn; cases hn
      · rcases mem_updateManyActive' r nk b e (h6 r hr hL) with hmem | ⟨hkey, _⟩
        · exact hmem
        · exact absurd hkey hkk

theorem charOut_create (q : Option String × Option String)
    (rest : List (Option String × Option String)) (e e' : Db) (nk : String)
    (nr : MediaRecord)
    (hq : ∀ k', effOf q k' = if k' = nk then some true else none)
    (hnr : nr.originalKey = nk) (hact : nr.isActive = true)
    (hfree : keyTaken e nk = false)
    (h : CharOut rest (e ++ [nr]) e') :
    CharOut (q :: rest) e e' := by
  obtain ⟨h1, h2, h3, h4, h5, h6⟩ := h
  refine ⟨h1, h2, ?_, ?_, ?_, ?_⟩
  · intro k hk
    exact h3 k (keyTaken_append_right e nr k hk)
  · intro q' hq' k hk
    rcases List.mem_cons.1 hq' with rfl | hmem
    · rw [hq k] at hk
      by_cases hkk : k = nk
      · subst hkk
        refine h3 k ?_
        rw [← hnr]
        exact keyTaken_append_new e nr
      · rw [if_neg hkk] at hk
        cases hk
    · exact h4 q' hmem k hk
  · intro r hr b' hb'
    rw [lastEff_cons] at hb'
    cases hL : lastEff rest r.originalKey with
    | some c =>
      rw [hL] at hb'
      have : c = b' := Option.some.inj hb'
      subst this
      exact h5 r hr c hL
    | none =>
      rw [hL] at hb'
      rw [hq r.originalKey] at hb'
      by_cases hkk : r.originalKey = nk
      · rw [if_pos hkk] at hb'
        have hb : b' = true := (Option.some.inj hb').symm
        subst hb
        rcases List.mem_append.1 (h6 r hr hL) with hmem | hmem
        · have : keyTaken e nk = true := by
            rw [← hkk]
            exact (keyTaken_iff e r.originalKey).2
              (List.mem_map.2 ⟨r, hmem, rfl⟩)
          rw [this] at hfree
          cases hfree
        · rw [List.mem_singleton.1 hmem]
          exact hact
      · rw [if_neg hkk] at hb'
        cases hb'
  · intro r hr hn
    rw [lastEff_cons] at hn
    cases hL : lastEff rest r.originalKey with
    | some c => rw [hL] at hn; cases hn
    | none =>
      rw [hL] at hn
      rw [hq r.originalKey] at hn
      by_cases hkk : r.originalKey = nk
      · rw [if_pos hkk] at hn; cases hn
      · rcases List.mem_append.1 (h6 r hr hL) with hmem | hmem
        · exact hmem
        · exact absurd (by rw [List.mem_singleton.1 hmem]; exact hnr) hkk

theorem processRecords_ok_char (cdn : String) (draws : Nat → Nat → Nat)
    (now : Nat) :
    ∀ (R : List (Option String × Option String)) (ci : Nat) (e e' : Db),
    (keysOf e).Nodup → (idsOf e).Nodup →
    processRecords cdn draws now R ci e = .ok e' →
    CharOut R e e' := by
  intro R
  induction R with
  | nil =>
    intro ci e e' hkeys hids hok
    have hok' : Except.ok (ε := Db) e = Except.ok e' := hok
    have he : e = e' := Except.ok.inj hok'
    subst he
    exact ⟨hkeys, hids, fun k h => h,
      fun q hq k hk => absurd hq (List.not_mem_nil q),
      fun r hr b hb => Option.noConfusion hb,
      fun r hr _ => hr⟩
  | cons q rest ih =>
    intro ci e e' hkeys hids hok
    rcases q with ⟨_ | raw, ev⟩
    · rw [processRecords_cons_none] at hok
      exact charOut_skip (none, ev) rest e e' (fun k => rfl)
        (ih ci e e' hkeys hids hok)
    · by_cases hraw : raw = ""
      · subst hraw
        rw [processRecords_cons_empty] at hok
        exact charOut_skip (some "", ev) rest e e' (fun k => rfl)
          (ih ci e e' hkeys hids hok)
      · rw [processRecords_cons cdn draws now raw ev rest ci e hraw] at hok
        cases heff : effEvent (normalizeKey raw) ev with
        | none =>
          rw [processKey_of_eff_none cdn raw ev (draws ci) now e heff] at hok
          have hok' : processRecords cdn draws now rest (ci+1) e = .ok e' := hok
          refine charOut_skip (some raw, ev) rest e e' ?_
            (ih (ci+1) e e' hkeys hids hok')
          intro k
          rw [effOf_eval raw ev k hraw, heff]
          split <;> rfl
        | some b =>
          have hq : ∀ k', effOf (some raw, ev) k' =
              if k' = normalizeKey raw then some b else none :=
            fun k' => by rw [effOf_eval raw ev k' hraw, heff]
          cases b with
          | false =>
            rw [processKey_of_eff_false cdn raw ev (draws ci) now e heff] at hok
            have hok' : processRecords cdn draws now rest (ci+1)
                (updateManyActive (normalizeKey raw) false e) = .ok e' := hok
            refine charOut_update (some raw, ev) rest e e' (normalizeKey raw)
              false hq (fun hcontra => by cases hcontra) ?_
            exact ih (ci+1) _ e'
              (by rw [keysOf_updateManyActive]; exact hkeys)
              (by rw [idsOf_updateManyActive]; exact hids) hok'
          | true =>
            cases htk : keyTaken e (normalizeKey raw) with
            | true =>
              rw [processKey_of_eff_true_taken cdn raw ev (draws ci) now e
                hkeys hids heff htk] at hok
              have hok' : processRecords cdn draws now rest (ci+1)
                  (updateManyActive (normalizeKey raw) true e) = .ok e' := hok
              refine charOut_update (some raw, ev) rest e e' (normalizeKey raw)
                true hq (fun _ => htk) ?_
              exact ih (ci+1) _ e'
                (by rw [keysOf_updateManyActive]; exact hkeys)
                (by rw [idsOf_updateManyActive]; exact hids) hok'
            | false =>
              obtain ⟨mt, hmt, hpk⟩ :=
                processKey_of_eff_true_free cdn raw ev (draws ci) now e heff htk
              rw [hpk] at hok
              rcases createImageRecord_spec
                  ⟨normalizeKey raw, cdn ++ "/" ++ normalizeKey raw, some mt,
                   none, none⟩ (draws ci) now e with
                ⟨nr, hcr, hknr, hanr, hfnr, hidnr⟩ | ⟨err, hcr⟩
              · rw [hcr] at hok
                have hok' : processRecords cdn draws now rest (ci+1)
                    (e ++ [nr]) = .ok e' := hok
                refine charOut_create (some raw, ev) rest e e'
                  (normalizeKey raw) nr hq hknr hanr htk ?_
                refine ih (ci+1) _ e' ?_ ?_ hok'
                · exact keysOf_append_nodup e nr hkeys
                    (by rw [hknr]; exact htk)
                · exact idsOf_append_nodup e nr hids hidnr
              · rw [hcr] at hok
                have hok' : Except.error (α := Db) e = Except.ok e' := hok
                cases hok'

/-- The event list the processing block walks, per payload shape. -/
def payloadEvents : Payload → List (Option String × Option String)
  | .simple k ev => [(some k, ev)]
  | .batched recs => recs
  | .unknown => []

theorem processPayloadE_eq_records (cdn : String) (p : Payload)
    (draws : Nat → Nat → Nat) (now : Nat) (db : Db) :
    processPayloadE cdn p draws now db =
      processRecords cdn draws now (payloadEvents p) 0 db := by
  cases p with
  | simple k ev =>
    by_cases hk : k = ""
    · subst hk; rfl
    · simp only [processPayloadE, payloadEvents, if_neg hk,
        processRecords_cons cdn draws now k ev [] 0 db hk]
      cases hpk : processKey cdn k ev (draws 0) now db <;> rfl
  | batched recs => rfl
  | unknown => rfl

/-- C5 counterexample: with the catalog holding one record whose id is
`00000`, processing the created-event payload for the new key `a.jpg` once
with an unlucky random stream (all draws collide, so the allocator throws
and the handler logs and drops the event, table unchanged, length 1), and
then processing the identical payload a second time with a different
stream, creates the record (length 2) — so processing the same payload a
second time does not leave the catalog in the state processing it once
did. -/
theorem webhook_replay_counterexample :
    (processPayload "c" (Payload.simple "a.jpg" none)
      (fun _ _ => 0) 0 [recX]).length = 1 ∧
    (processPayload "c" (Payload.simple "a.jpg" none) (fun _ _ => 1) 0
      (processPayload "c" (Payload.simple "a.jpg" none)
        (fun _ _ => 0) 0 [recX])).length = 2 :=
  ⟨by decide, by decide⟩

/-- C5 amended: for every webhook payload over a catalog with unique keys
and ids, if processing the payload completes without a thrown allocator
error, then processing the identical payload a second time — with any
random stream and timestamp — returns the catalog unchanged: a "created"
event for a key that already has a record reactivates it if inactive and
is otherwise a no-op (never allocating a second record), and a "removed"
event for a key with no record is a no-op, not an error. -/
theorem webhook_replay_idempotent (cdn : String) (p : Payload)
    (draws1 draws2 : Nat → Nat → Nat) (now1 now2 : Nat) (db db' : Db)
    (hkeys : (keysOf db).Nodup) (hids : (idsOf db).Nodup)
    (h1 : processPayloadE cdn p draws1 now1 db = .ok db') :
    processPayloadE cdn p draws2 now2 db' = .ok db' := by
  rw [processPayloadE_eq_records] at h1 ⊢
  obtain ⟨hk', hi', hmono, hcre, hlast, hold⟩ :=
    processRecords_ok_char cdn draws1 now1 (payloadEvents p) 0 db db'
      hkeys hids h1
  rw [processRecords_noop cdn draws2 now2 (payloadEvents p) 0 db' hk' hi' hcre]
  congr 1
  unfold applyReplay
  have hfix : ∀ r ∈ db',
      (match lastEff (payloadEvents p) r.originalKey with
       | some b => setActive r b
       | none => r) = r := by
    intro r hr
    cases hL : lastEff (payloadEvents p) r.originalKey with
    | some b => exact setActive_self r b (hlast r hr b hL)
    | none => rfl
  rw [List.map_congr_left hfix, List.map_id']

/-- The record the witness scenario of C5 creates on the first pass. -/
def recA : MediaRecord :=
  { id := "00001", originalKey := "a.jpg", url := "c/a.jpg",
    mediaType := MediaType.IMAGE, sizeBytes := none, contentType := none,
    isActive := true, createdAt := 0 }

theorem webhook_replay_idempotent_witness :
    (keysOf [recX]).Nodup ∧ (idsOf [recX]).Nodup ∧
    processPayloadE "c" (Payload.simple "a.jpg" none) (fun _ _ => 1) 0
      [recX] = .ok [recX, recA] ∧
    processPayloadE "c" (Payload.simple "a.jpg" none) (fun _ _ => 5) 7
      [recX, recA] = .ok [recX, recA] :=
  ⟨by decide, by decide, rfl,
    webhook_replay_idempotent "c" (Payload.simple "a.jpg" none)
      (fun _ _ => 1) (fun _ _ => 5) 0 7 [recX] [recX, recA]
      (by decide) (by decide) rfl⟩

/-! ## Reconciliation-pass characterization (C1, C4) -/

/-- The add/reactivate walk's effect on the original table: records whose
key has already been observed are active, the rest are untouched. -/
def activateIn (O : List String) (db : Db) : Db :=
  db.map (fun r => if r.originalKey ∈ O then setActive r true else r)

theorem activateIn_nil (db : Db) : activateIn [] db = db := by
  unfold activateIn
  have : ∀ r : MediaRecord,
      (if r.originalKey ∈ ([] : List String) then setActive r true else r) = r :=
    fun r => by rw [if_neg (List.not_mem_nil _)]
  rw [List.map_congr_left (fun r _ => this r), List.map_id']

theorem keysOf_activateIn (O : List String) (db : Db) :
    keysOf (activateIn O db) = keysOf db := by
  unfold keysOf activateIn
  rw [List.map_map]
  refine List.map_congr_left (fun r _ => ?_)
  by_cases h : r.originalKey ∈ O <;> simp [h, Function.comp]

theorem idsOf_activateIn (O : List String) (db : Db) :
    idsOf (activateIn O db) = idsOf db := by
  unfold idsOf activateIn
  rw [List.map_map]
  refine List.map_congr_left (fun r _ => ?_)
  by_cases h : r.originalKey ∈ O <;> simp [h, Function.comp]

theorem activateIn_append_not_mem (O : List String) (k : String) (db : Db)
    (h : k ∉ keysOf db) : activateIn (O ++ [k]) db = activateIn O db := by
  unfold activateIn
  refine List.map_congr_left (fun r hr => ?_)
  have hne : r.originalKey ≠ k := by
    intro hh
    exact h (hh ▸ List.mem_map.2 ⟨r, hr, rfl⟩)
  by_cases hO : r.originalKey ∈ O
  · rw [if_pos hO, if_pos (List.mem_append_left _ hO)]
  · rw [if_neg hO, if_neg ?_]
    intro hh
    rcases List.mem_append.1 hh with h1 | h1
    · exact hO h1
    · exact hne (List.mem_singleton.1 h1)

theorem activateIn_append_active (O : List String) (k : String) (db : Db)
    (h : ∀ x ∈ db, x.originalKey = k → x.isActive = true) :
    activateIn (O ++ [k]) db = activateIn O db := by
  unfold activateIn
  refine List.map_congr_left (fun r hr => ?_)
  by_cases hO : r.originalKey ∈ O
  · rw [if_pos hO, if_pos (List.mem_append_left _ hO)]
  · rw [if_neg hO]
    by_cases hk : r.originalKey = k
    · rw [if_pos (List.mem_append_right _ (List.mem_singleton.2 hk))]
      exact setActive_self r true (h r hr hk)
    · rw [if_neg ?_]
      intro hh
      rcases List.mem_append.1 hh with h1 | h1
      · exact hO h1
      · exact hk (List.mem_singleton.1 h1)

theorem updateManyActive_append (k : String) (b : Bool) (l1 l2 : Db) :
    updateManyActive k b (l1 ++ l2) =
      updateManyActive k b l1 ++ updateManyActive k b l2 := by
  unfold updateManyActive
  exact List.map_append _ l1 l2

theorem updateManyActive_id_of_no_key (k : String) (b : Bool) (l : Db)
    (h : ∀ x ∈ l, x.originalKey ≠ k) : updateManyActive k b l = l := by
  unfold updateManyActive
  have : ∀ x ∈ l,
      (if x.originalKey = k then ({ x with isActive := b } : MediaRecord)
       else x) = x :=
    fun x hx => by rw [if_neg (h x hx)]
  rw [List.map_congr_left this, List.map_id']

theorem updateManyActive_activateIn (k : String) (O : List String) (db : Db) :
    updateManyActive k true (activateIn O db) = activateIn (O ++ [k]) db := by
  unfold updateManyActive activateIn
  rw [List.map_map]
  refine List.map_congr_left (fun r _ => ?_)
  simp only [Function.comp]
  by_cases hk : r.originalKey = k
  · have hmem : r.originalKey ∈ O ++ [k] :=
      List.mem_append_right _ (List.mem_singleton.2 hk)
    by_cases hO : r.originalKey ∈ O
    · rw [if_pos hO]
      simp only [originalKey_setActive, if_pos hk, if_pos hmem]
      rfl
    · rw [if_neg hO]
      rw [if_pos hk, if_pos hmem]
      rfl
  · have hnmem : r.originalKey ∈ O ++ [k] ↔ r.originalKey ∈ O := by
      constructor
      · intro hh
        rcases List.mem_append.1 hh with h1 | h1
        · exact h1
        · exact absurd (List.mem_singleton.1 h1) hk
      · exact fun h1 => List.mem_append_left _ h1
    by_cases hO : r.originalKey ∈ O
    · rw [if_pos hO]
      simp only [originalKey_setActive, if_neg hk, if_pos (hnmem.2 hO)]
    · rw [if_neg hO, if_neg hk, if_neg (fun hh => hO (hnmem.1 hh))]

theorem contains_iff_mem (l : List String) (a : String) :
    l.contains a = true ↔ a ∈ l := by
  induction l with
  | nil => simp [List.contains]
  | cons x t ih => simp [List.contains] at *

theorem find_record (db0 : Db) (hkeys : (keysOf db0).Nodup)
    (r : MediaRecord) (hr : r ∈ db0) :
    db0.find? (fun x => x.originalKey = r.originalKey) = some r := by
  have hsome : (db0.find? (fun x => x.originalKey = r.originalKey)).isSome := by
    rw [List.find?_isSome]
    exact ⟨r, hr, by simp⟩
  obtain ⟨r1, hr1⟩ := Option.isSome_iff_exists.1 hsome
  have h1 := List.find?_some hr1
  have hmem1 := List.mem_of_find?_eq_some hr1
  have he : r1 = r := nodup_keys_eq db0 hkeys r1 r hmem1 hr (by simpa using h1)
  rw [hr1, he]

theorem snapshot_find (db0 : Db) (hkeys : (keysOf db0).Nodup)
    (r : MediaRecord) (hr : r ∈ db0) :
    (snapshotOf db0).find? (fun p => p.fst = r.originalKey) =
      some (r.originalKey, r.isActive) := by
  induction db0 with
  | nil => cases hr
  | cons x t ih =>
    have hkt : (keysOf t).Nodup := by
      unfold keysOf at hkeys ⊢
      exact (List.nodup_cons.1 hkeys).2
    rcases List.mem_cons.1 hr with rfl | hmem
    · show List.find? _ ((r.originalKey, r.isActive) :: snapshotOf t) = _
      rw [List.find?_cons_of_pos _ (by simp)]
    · show List.find? _ ((x.originalKey, x.isActive) :: snapshotOf t) = _
      by_cases hx : x.originalKey = r.originalKey
      · have hne : x ≠ r ∨ x = r := by
          by_cases hh : x = r
          · exact Or.inr hh
          · exact Or.inl hh
        rcases hne with hne | rfl
        · exfalso
          have : x.originalKey ∈ keysOf t := List.mem_map.2 ⟨r, hmem, hx.symm⟩
          unfold keysOf at hkeys
          exact (List.nodup_cons.1 hkeys).1 this
        · rw [List.find?_cons_of_pos _ (by simp)]
      · rw [List.find?_cons_of_neg _ (by simp [hx])]
        exact ih hkt hmem

theorem observedKeys_nil (pfx : String) : observedKeys pfx [] = [] := rfl

theorem observedKeys_cons (pfx : String) (o : RObj) (rest : List RObj) :
    observedKeys pfx (o :: rest) =
      match objKey? pfx o with
      | none => observedKeys pfx rest
      | some k => k :: observedKeys pfx rest := by
  unfold observedKeys
  rw [List.filterMap_cons]
  cases objKey? pfx o <;> rfl

theorem syncAddLoop_cons (pfx cdn : String) (snap : List (String × Bool))
    (snapKeys : List String) (draws : Nat → Nat → Nat) (now : Nat)
    (o : RObj) (rest : List RObj) (st : AddState) :
    syncAddLoop pfx cdn snap snapKeys draws now (o :: rest) st =
      match objKey? pfx o with
      | none => syncAddLoop pfx cdn snap snapKeys draws now rest st
      | some k =>
        if snapKeys.contains k then
          match snap.find? (fun p => p.fst = k) with
          | some p =>
            if p.snd = false then
              syncAddLoop pfx cdn snap snapKeys draws now rest
                { st with db := updateManyActive k true st.db,
                          reactivatedCount := st.reactivatedCount + 1 }
            else syncAddLoop pfx cdn snap snapKeys draws now rest st
          | none => syncAddLoop pfx cdn snap snapKeys draws now rest st
        else
          match createImageRecord
              ⟨k, cdn ++ "/" ++ k, getMediaType k, o.size, none⟩
              (draws st.callIdx) now st.db with
          | (.ok _, db') =>
            syncAddLoop pfx cdn snap snapKeys draws now rest
              { st with db := db', newCount := st.newCount + 1,
                        callIdx := st.callIdx + 1 }
          | (.error _, db') => .error db' := rfl

theorem keysOf_append_eq (db l : Db) :
    keysOf (db ++ l) = keysOf db ++ keysOf l := by
  unfold keysOf
  exact List.map_append _ db l

theorem syncAddLoop_char (pfx cdn : String) (draws : Nat → Nat → Nat)
    (now : Nat) (db0 : Db) (hkeys0 : (keysOf db0).Nodup) :
    ∀ (objs : List RObj) (st : AddState) (tail : Db) (O : List String),
    st.db = activateIn O db0 ++ tail →
    (∀ t ∈ tail, t.originalKey ∉ keysOf db0 ∧ t.originalKey ∈ O ∧
      t.isActive = true) →
    (keysOf st.db).Nodup → (idsOf st.db).Nodup →
    ∀ st', syncAddLoop pfx cdn (snapshotOf db0) (keysOf db0) draws now objs st
        = .ok st' →
    ∃ tail', st'.db = activateIn (O ++ observedKeys pfx objs) db0 ++ tail' ∧
      (∀ t ∈ tail', t.originalKey ∉ keysOf db0 ∧
        t.originalKey ∈ O ++ observedKeys pfx objs ∧ t.isActive = true) ∧
      (keysOf st'.db).Nodup ∧ (idsOf st'.db).Nodup ∧
      (∀ k, k ∈ keysOf st.db → k ∈ keysOf st'.db) ∧
      (∀ k, k ∈ observedKeys pfx objs → k ∈ keysOf st'.db) := by
  intro objs
  induction objs with
  | nil =>
    intro st tail O hdb htail hk hi st' hok
    have hok' : Except.ok (ε := Db) st = .ok st' := hok
    have hst : st = st' := Except.ok.inj hok'
    subst hst
    rw [observedKeys_nil, List.append_nil]
    exact ⟨tail, hdb, htail, hk, hi, fun k h => h,
      fun k h => absurd h (List.not_mem_nil k)⟩
  | cons o rest ih =>
    intro st tail O hdb htail hk hi st' hok
    rw [syncAddLoop_cons] at hok
    rw [observedKeys_cons]
    split at hok
    · -- unlisted / filtered-out object
      exact ih st tail O hdb htail hk hi st' hok
    · rename_i k heq
      split at hok
      · -- key known to the snapshot
        rename_i hcont
        have hkmem : k ∈ keysOf db0 := (contains_iff_mem _ k).1 hcont
        obtain ⟨rk, hrkmem, hrkkey⟩ : ∃ rk ∈ db0, rk.originalKey = k := by
          rcases List.mem_map.1 hkmem with ⟨rk, hrkmem, hrkkey⟩
          exact ⟨rk, hrkmem, hrkkey⟩
        have hfind := snapshot_find db0 hkeys0 rk hrkmem
        rw [hrkkey] at hfind
        split at hok
        · rename_i p heqf
          rw [hfind] at heqf
          have hp : ((k, rk.isActive) : String × Bool) = p :=
            Option.some.inj heqf
          split at hok
          · -- reactivation
            rename_i hpsnd
            have hract : rk.isActive = false := by
              rw [← hp] at hpsnd
              exact hpsnd
            have hdb1 : updateManyActive k true st.db =
                activateIn (O ++ [k]) db0 ++ tail := by
              rw [hdb, updateManyActive_append,
                updateManyActive_activateIn k O db0,
                updateManyActive_id_of_no_key k true tail
                  (fun t ht hc => (htail t ht).1 (hc ▸ hkmem))]
            obtain ⟨tail', h1, h2, h3, h4, h5, h6⟩ :=
              ih { st with db := updateManyActive k true st.db,
                           reactivatedCount := st.reactivatedCount + 1 }
                tail (O ++ [k]) hdb1
                (fun t ht => ⟨(htail t ht).1,
                  List.mem_append_left _ (htail t ht).2.1,
                  (htail t ht).2.2⟩)
                (by show (keysOf (updateManyActive k true st.db)).Nodup
                    rw [keysOf_updateManyActive]; exact hk)
                (by show (idsOf (updateManyActive k true st.db)).Nodup
                    rw [idsOf_updateManyActive]; exact hi)
                st' hok
            rw [List.append_cons O k (observedKeys pfx rest)]
            refine ⟨tail', h1, h2, h3, h4, ?_, ?_⟩
            · intro k' hk'
              refine h5 k' ?_
              show k' ∈ keysOf (updateManyActive k true st.db)
              rw [keysOf_updateManyActive]
              exact hk'
            · intro k' hk'
              rcases List.mem_cons.1 hk' with rfl | hmem
              · refine h5 k' ?_
                show k' ∈ keysOf (updateManyActive k' true st.db)
                rw [keysOf_updateManyActive, hdb, keysOf_append_eq,
                  keysOf_activateIn]
                exact List.mem_append_left _ hkmem
              · exact h6 k' hmem
          · -- already active: no-op
            rename_i hpsnd
            have hract : rk.isActive = true := by
              rw [← hp] at hpsnd
              cases hb : rk.isActive with
              | false => exact absurd hb hpsnd
              | true => rfl
            have hdb1 : st.db = activateIn (O ++ [k]) db0 ++ tail := by
              rw [activateIn_append_active O k db0
                (fun x hx hxk => by
                  rw [nodup_keys_eq db0 hkeys0 x rk hx hrkmem
                    (by rw [hxk, hrkkey])]
                  exact hract)]
              exact hdb
            obtain ⟨tail', h1, h2, h3, h4, h5, h6⟩ :=
              ih st tail (O ++ [k]) hdb1
                (fun t ht => ⟨(htail t ht).1,
                  List.mem_append_left _ (htail t ht).2.1,
                  (htail t ht).2.2⟩)
                hk hi st' hok
            rw [List.append_cons O k (observedKeys pfx rest)]
            refine ⟨tail', h1, h2, h3, h4, h5, ?_⟩
            intro k' hk'
            rcases List.mem_cons.1 hk' with rfl | hmem
            · refine h5 k' ?_
              rw [hdb, keysOf_append_eq, keysOf_activateIn]
              exact List.mem_append_left _ hkmem
            · exact h6 k' hmem
        · -- find? returned none: impossible, the key is in the snapshot
          rename_i heqf
          rw [hfind] at heqf
          cases heqf
      · -- new key: allocate
        rename_i hcont
        have hkfree : k ∉ keysOf db0 := fun hmem =>
          hcont ((contains_iff_mem _ k).2 hmem)
        split at hok
        · rename_i nr0 db1 heqc
          rcases createImageRecord_spec
              ⟨k, cdn ++ "/" ++ k, getMediaType k, o.size, none⟩
              (draws st.callIdx) now st.db with
            ⟨nr, hcr, hknr, hanr, hfnr, hidnr⟩ | ⟨e, hcr⟩
          · rw [hcr] at heqc
            injection heqc with he1 he2
            subst he2
            have hdb1 : st.db ++ [nr] =
                activateIn (O ++ [k]) db0 ++ (tail ++ [nr]) := by
              rw [activateIn_append_not_mem O k db0 hkfree, hdb,
                List.append_assoc]
            obtain ⟨tail', h1, h2, h3, h4, h5, h6⟩ :=
              ih { st with db := st.db ++ [nr], newCount := st.newCount + 1,
                           callIdx := st.callIdx + 1 }
                (tail ++ [nr]) (O ++ [k]) hdb1
                (fun t ht => by
                  rcases List.mem_append.1 ht with hmem | hmem
                  · exact ⟨(htail t hmem).1,
                      List.mem_append_left _ (htail t hmem).2.1,
                      (htail t hmem).2.2⟩
                  · rw [List.mem_singleton.1 hmem]
                    refine ⟨by rw [hknr]; exact hkfree, ?_, hanr⟩
                    rw [hknr]
                    exact List.mem_append_right _ (List.mem_singleton.2 rfl))
                (by show (keysOf (st.db ++ [nr])).Nodup
                    exact keysOf_append_nodup st.db nr hk (by rw [hknr]; exact hfnr))
                (by show (idsOf (st.db ++ [nr])).Nodup
                    exact idsOf_append_nodup st.db nr hi hidnr)
                st' hok
            rw [List.append_cons O k (observedKeys pfx rest)]
            refine ⟨tail', h1, h2, h3, h4, ?_, ?_⟩
            · intro k' hk'
              refine h5 k' ?_
              show k' ∈ keysOf (st.db ++ [nr])
              rw [keysOf_append_eq]
              exact List.mem_append_left _ hk'
            · intro k' hk'
              rcases List.mem_cons.1 hk' with rfl | hmem
              · refine h5 k' ?_
                show k' ∈ keysOf (st.db ++ [nr])
                rw [keysOf_append_eq]
                refine List.mem_append_right _ ?_
                show k' ∈ [nr.originalKey]
                rw [hknr]
                exact List.mem_singleton.2 rfl
              · exact h6 k' hmem
          · rw [hcr] at heqc
            cases heqc
        · -- allocator threw: the walk returned an error, contradiction
          rename_i heqc
          cases hok

theorem bool_eq_of_iff {a b : Bool} (h : a = true ↔ b = true) : a = b := by
  cases a with
  | true => exact (h.1 rfl).symm
  | false =>
    cases hb : b with
    | false => rfl
    | true => exact Bool.noConfusion (h.2 hb)

theorem deactLoop_cons (r2 : List String) (p : String × Bool)
    (rest : List (String × Bool)) (cur : Db) (n : Nat) :
    deactLoop r2 (p :: rest) cur n =
      if ¬ r2.contains p.fst ∧ p.snd then
        deactLoop r2 rest (updateManyActive p.fst false cur) (n+1)
      else deactLoop r2 rest cur n := rfl

theorem deactLoop_fst (r2 : List String) :
    ∀ (entries : List (String × Bool)) (cur : Db) (n : Nat),
    (deactLoop r2 entries cur n).fst =
      cur.map (fun r =>
        if entries.any (fun p =>
            p.fst = r.originalKey && !(r2.contains p.fst) && p.snd)
        then setActive r false else r) := by
  intro entries
  induction entries with
  | nil =>
    intro cur n
    show cur = _
    have h : ∀ r ∈ cur,
        (if ([] : List (String × Bool)).any (fun p =>
            p.fst = r.originalKey && !(r2.contains p.fst) && p.snd) = true
         then setActive r false else r) = r :=
      fun r _ => by rw [if_neg (by simp)]
    rw [List.map_congr_left h, List.map_id']
  | cons p rest ihe =>
    intro cur n
    rw [deactLoop_cons]
    by_cases hc : ¬ r2.contains p.fst ∧ p.snd
    · rw [if_pos hc, ihe, updateManyActive_eq_map, List.map_map]
      refine List.map_congr_left (fun r _ => ?_)
      simp only [Function.comp, List.any_cons]
      have hcont : r2.contains p.fst = false := by
        cases hcc : r2.contains p.fst with
        | false => rfl
        | true => exact absurd hcc hc.1
      have hsnd : p.snd = true := hc.2
      by_cases hpr : r.originalKey = p.fst
      · have h1 : decide (p.fst = p.fst) = true := by simp
        have hcnd : (decide (p.fst = r.originalKey) && !(r2.contains p.fst) &&
            p.snd) = true := by
          rw [hpr, h1, hcont, hsnd]
          rfl
        simp only [if_pos hpr, originalKey_setActive, setActive_setActive,
          hcnd, Bool.true_or]
        simp
      · have hf : decide (p.fst = r.originalKey) = false := by
          rw [decide_eq_false_iff_not]
          exact fun h => hpr h.symm
        simp only [if_neg hpr, hf, Bool.false_and, Bool.false_or]
    · rw [if_neg hc, ihe]
      refine List.map_congr_left (fun r _ => ?_)
      simp only [List.any_cons]
      have hfp : (decide (p.fst = r.originalKey) && !(r2.contains p.fst) &&
          p.snd) = false := by
        cases hcc : r2.contains p.fst with
        | true => simp [hcc]
        | false =>
          cases hss : p.snd with
          | false => simp [hss]
          | true =>
            have hnc : ¬ r2.contains p.fst = true := fun h => by
              rw [hcc] at h
              cases h
            exact absurd ⟨hnc, hss⟩ hc
      simp only [hfp, Bool.false_or]

theorem snapshot_any_deact (db0 : Db) (hkeys : (keysOf db0).Nodup)
    (r : MediaRecord) (hr : r ∈ db0) (r2 : List String) :
    (snapshotOf db0).any (fun p =>
        p.fst = r.originalKey && !(r2.contains p.fst) && p.snd) =
      (!(r2.contains r.originalKey) && r.isActive) := by
  refine bool_eq_of_iff ?_
  rw [List.any_eq_true]
  constructor
  · rintro ⟨p, hp, hcond⟩
    rcases List.mem_map.1 hp with ⟨x, hx, hxp⟩
    subst hxp
    rw [Bool.and_eq_true, Bool.and_eq_true] at hcond
    have h1 : x.originalKey = r.originalKey :=
      of_decide_eq_true hcond.1.1
    have hxr : x = r := nodup_keys_eq db0 hkeys x r hx hr h1
    subst hxr
    rw [Bool.and_eq_true]
    exact ⟨hcond.1.2, hcond.2⟩
  · intro h
    rw [Bool.and_eq_true] at h
    refine ⟨(r.originalKey, r.isActive), List.mem_map.2 ⟨r, hr, rfl⟩, ?_⟩
    show (decide (r.originalKey = r.originalKey) &&
      !(r2.contains r.originalKey) && r.isActive) = true
    have hd : decide (r.originalKey = r.originalKey) = true := by simp
    rw [hd, h.1, h.2]
    rfl

theorem snapshot_any_tail (db0 : Db) (t : MediaRecord)
    (ht : t.originalKey ∉ keysOf db0) (r2 : List String) :
    (snapshotOf db0).any (fun p =>
        p.fst = t.originalKey && !(r2.contains p.fst) && p.snd) = false := by
  cases hA : (snapshotOf db0).any (fun p =>
      p.fst = t.originalKey && !(r2.contains p.fst) && p.snd) with
  | false => rfl
  | true =>
    exfalso
    rw [List.any_eq_true] at hA
    obtain ⟨p, hp, hcond⟩ := hA
    rcases List.mem_map.1 hp with ⟨x, hx, hxp⟩
    subst hxp
    rw [Bool.and_eq_true, Bool.and_eq_true] at hcond
    have h1 : x.originalKey = t.originalKey :=
      of_decide_eq_true hcond.1.1
    exact ht (h1 ▸ List.mem_map.2 ⟨x, hx, rfl⟩)

theorem runSync_ok_eq (pfx cdn : String) (objs : List RObj)
    (draws : Nat → Nat → Nat) (now : Nat) (db : Db) (st : AddState)
    (hadd : syncAddLoop pfx cdn (snapshotOf db)
        (db.map (fun r => r.originalKey)) draws now objs ⟨db, 0, 0, 0⟩
      = .ok st) :
    runSync true pfx cdn (.ok objs) draws now db =
      ({ ok := true, skipped := false, reason := none,
         newCount := st.newCount,
         deactivatedCount :=
           (deactLoop (observedKeys pfx objs) (snapshotOf db) st.db 0).snd,
         reactivatedCount := st.reactivatedCount },
       (deactLoop (observedKeys pfx objs) (snapshotOf db) st.db 0).fst) := by
  unfold runSync
  simp only [hadd]
  rfl

theorem runSync_addError_eq (pfx cdn : String) (objs : List RObj)
    (draws : Nat → Nat → Nat) (now : Nat) (db : Db) (d : Db)
    (hadd : syncAddLoop pfx cdn (snapshotOf db)
        (db.map (fun r => r.originalKey)) draws now objs ⟨db, 0, 0, 0⟩
      = .error d) :
    runSync true pfx cdn (.ok objs) draws now db =
      ({ ok := false, skipped := false, reason := some "Error during R2 Sync",
         newCount := 0, deactivatedCount := 0, reactivatedCount := 0 },
       d) := by
  unfold runSync
  simp only [hadd]
  rfl

/-- The table after a successful reconciliation pass: every pre-existing
record's `isActive` becomes exactly "its key was observed", and the freshly
created rows (all active, all with observed keys new to the catalog) are
appended. -/
theorem runSync_ok_char (pfx cdn : String) (objs : List RObj)
    (draws : Nat → Nat → Nat) (now : Nat) (db : Db)
    (hkeys : (keysOf db).Nodup) (hids : (idsOf db).Nodup)
    (hok : (runSync true pfx cdn (Except.ok objs) draws now db).fst.ok
      = true) :
    ∃ tail,
      (runSync true pfx cdn (Except.ok objs) draws now db).snd =
        db.map (fun r =>
          setActive r (decide (r.originalKey ∈ observedKeys pfx objs)))
          ++ tail ∧
      (∀ t ∈ tail, t.originalKey ∈ observedKeys pfx objs ∧
        t.originalKey ∉ keysOf db ∧ t.isActive = true) ∧
      (∀ k, k ∈ observedKeys pfx objs →
        k ∈ keysOf (runSync true pfx cdn (Except.ok objs) draws now db).snd) := by
  cases hadd : syncAddLoop pfx cdn (snapshotOf db)
      (db.map (fun r => r.originalKey)) draws now objs ⟨db, 0, 0, 0⟩ with
  | error d =>
    rw [runSync_addError_eq pfx cdn objs draws now db d hadd] at hok
    cases hok
  | ok st =>
    have hrs := runSync_ok_eq pfx cdn objs draws now db st hadd
    rw [hrs]
    obtain ⟨tail', h1, h2, _, _, h5, h6⟩ :=
      syncAddLoop_char pfx cdn draws now db hkeys objs ⟨db, 0, 0, 0⟩ [] []
        (by show db = activateIn [] db ++ []
            rw [activateIn_nil, List.append_nil])
        (fun t ht => absurd ht (List.not_mem_nil t))
        hkeys hids st hadd
    rw [List.nil_append] at h1 h2
    have htailkeys : ∀ t ∈ tail', t.originalKey ∉ keysOf db :=
      fun t ht => (h2 t ht).1
    -- compute the deactivation pass over st.db
    have hfst : (deactLoop (observedKeys pfx objs) (snapshotOf db)
        st.db 0).fst =
        db.map (fun r =>
          setActive r (decide (r.originalKey ∈ observedKeys pfx objs)))
          ++ tail' := by
      rw [deactLoop_fst, h1, List.map_append]
      congr 1
      · unfold activateIn
        rw [List.map_map]
        refine List.map_congr_left (fun r hr => ?_)
        simp only [Function.comp]
        by_cases hmem : r.originalKey ∈ observedKeys pfx objs
        · simp only [if_pos hmem, originalKey_setActive]
          have hcontains : (observedKeys pfx objs).contains r.originalKey
              = true := (contains_iff_mem _ _).2 hmem
          have hany : (snapshotOf db).any (fun p =>
              p.fst = r.originalKey &&
                !((observedKeys pfx objs).contains p.fst) && p.snd)
              = false := by
            rw [snapshot_any_deact db hkeys r hr, hcontains]
            rfl
          rw [if_neg (by rw [hany]; exact Bool.noConfusion),
            show decide (r.originalKey ∈ observedKeys pfx objs) = true
              from decide_eq_true hmem]
        · simp only [if_neg hmem]
          have hcontains : (observedKeys pfx objs).contains r.originalKey
              = false := by
            cases hcc : (observedKeys pfx objs).contains r.originalKey with
            | false => rfl
            | true => exact absurd ((contains_iff_mem _ _).1 hcc) hmem
          have hany : (snapshotOf db).any (fun p =>
              p.fst = r.originalKey &&
                !((observedKeys pfx objs).contains p.fst) && p.snd)
              = r.isActive := by
            rw [snapshot_any_deact db hkeys r hr, hcontains]
            cases r.isActive <;> rfl
          rw [show decide (r.originalKey ∈ observedKeys pfx objs) = false
            from decide_eq_false hmem]
          cases hact : r.isActive with
          | true =>
            rw [if_pos (by rw [hany, hact])]
          | false =>
            rw [if_neg (by rw [hany, hact]; exact Bool.noConfusion)]
            exact (setActive_self r false hact).symm
      · have hid : ∀ t ∈ tail',
            (if (snapshotOf db).any (fun p =>
                p.fst = t.originalKey &&
                  !((observedKeys pfx objs).contains p.fst) && p.snd) = true
             then setActive t false else t) = t := by
          intro t ht
          rw [if_neg (by
            rw [snapshot_any_tail db t (htailkeys t ht)]
            exact Bool.noConfusion)]
        rw [List.map_congr_left hid, List.map_id']
    refine ⟨tail', hfst, ?_, ?_⟩
    · exact fun t ht => ⟨(h2 t ht).2.1, (h2 t ht).1, (h2 t ht).2.2⟩
    · intro k hkm
      show k ∈ keysOf ((deactLoop (observedKeys pfx objs) (snapshotOf db)
        st.db 0).fst)
      rw [hfst, keysOf_append_eq]
      by_cases hkdb : k ∈ keysOf db
      · refine List.mem_append_left _ ?_
        unfold keysOf
        rw [List.map_map]
        rcases List.mem_map.1 hkdb with ⟨r, hr, hrk⟩
        refine List.mem_map.2 ⟨r, hr, ?_⟩
        simp [Function.comp, hrk]
      · have hst : k ∈ keysOf st.db := h6 k hkm
        rw [h1, keysOf_append_eq, keysOf_activateIn] at hst
        rcases List.mem_append.1 hst with hmem | hmem
        · exact absurd hmem hkdb
        · exact List.mem_append_right _ hmem

/-- C1: for every successful reconciliation pass (listing succeeded, feature
enabled, no mid-pass failure), the set of records whose `isActive` flips
from true to false is exactly the set of catalog records whose
`originalKey` is not among the supported keys observed in the full
listing; a record whose key appears in the listing is never deactivated by
the pass — it ends the pass active. -/
theorem runSync_deactivates_exactly_unobserved (pfx cdn : String)
    (objs : List RObj) (draws : Nat → Nat → Nat) (now : Nat) (db : Db)
    (hkeys : (keysOf db).Nodup) (hids : (idsOf db).Nodup)
    (hok : (runSync true pfx cdn (Except.ok objs) draws now db).fst.ok
      = true) :
    db.length ≤ (runSync true pfx cdn (Except.ok objs) draws now db).snd.length ∧
    ∀ i (h : i < db.length)
      (h' : i < (runSync true pfx cdn (Except.ok objs) draws now db).snd.length),
      (((db.get ⟨i, h⟩).isActive = true ∧
        (((runSync true pfx cdn (Except.ok objs) draws now db).snd).get
          ⟨i, h'⟩).isActive = false) ↔
        ((db.get ⟨i, h⟩).isActive = true ∧
          (db.get ⟨i, h⟩).originalKey ∉ observedKeys pfx objs)) ∧
      ((db.get ⟨i, h⟩).originalKey ∈ observedKeys pfx objs →
        (((runSync true pfx cdn (Except.ok objs) draws now db).snd).get
          ⟨i, h'⟩).isActive = true) := by
  obtain ⟨tail, hdb', htail, hcov⟩ :=
    runSync_ok_char pfx cdn objs draws now db hkeys hids hok
  constructor
  · rw [hdb', List.length_append, List.length_map]
    exact Nat.le_add_right _ _
  · intro i h h'
    have hlm : i < (db.map (fun r =>
        setActive r (decide (r.originalKey ∈ observedKeys pfx objs)))).length := by
      rw [List.length_map]
      exact h
    have hget : ((runSync true pfx cdn (Except.ok objs) draws now db).snd).get
        ⟨i, h'⟩ =
        setActive (db.get ⟨i, h⟩)
          (decide ((db.get ⟨i, h⟩).originalKey ∈ observedKeys pfx objs)) := by
      rw [List.get_eq_getElem, List.getElem_of_eq hdb' h',
        List.getElem_append_left hlm, List.getElem_map, List.get_eq_getElem]
    rw [hget]
    constructor
    · constructor
      · rintro ⟨ha, hf⟩
        refine ⟨ha, fun hm => ?_⟩
        rw [isActive_setActive, decide_eq_true hm] at hf
        cases hf
      · rintro ⟨ha, hm⟩
        refine ⟨ha, ?_⟩
        rw [isActive_setActive, decide_eq_false hm]
    · intro hm
      rw [isActive_setActive, decide_eq_true hm]

/-- A second concrete row (initially inactive) used in witnesses. -/
def recY : MediaRecord :=
  { id := "00002", originalKey := "y.jpg", url := "c/y.jpg",
    mediaType := MediaType.IMAGE, sizeBytes := none, contentType := none,
    isActive := false, createdAt := 0 }

theorem runSync_deactivates_exactly_unobserved_witness :
    (keysOf [recX, recY]).Nodup ∧ (idsOf [recX, recY]).Nodup ∧
    (runSync true "" "c" (Except.ok [⟨some "y.jpg", some 3⟩,
      ⟨some "a.jpg", some 4⟩]) (fun _ _ => 1) 0 [recX, recY]).fst.ok = true ∧
    ([recX, recY].length ≤ (runSync true "" "c"
      (Except.ok [⟨some "y.jpg", some 3⟩, ⟨some "a.jpg", some 4⟩])
      (fun _ _ => 1) 0 [recX, recY]).snd.length ∧
    ∀ i (h : i < ([recX, recY] : Db).length)
      (h' : i < (runSync true "" "c"
        (Except.ok [⟨some "y.jpg", some 3⟩, ⟨some "a.jpg", some 4⟩])
        (fun _ _ => 1) 0 [recX, recY]).snd.length),
      ((((([recX, recY] : Db)).get ⟨i, h⟩).isActive = true ∧
        (((runSync true "" "c"
          (Except.ok [⟨some "y.jpg", some 3⟩, ⟨some "a.jpg", some 4⟩])
          (fun _ _ => 1) 0 [recX, recY]).snd).get ⟨i, h'⟩).isActive
          = false) ↔
        (((([recX, recY] : Db)).get ⟨i, h⟩).isActive = true ∧
          ((([recX, recY] : Db)).get ⟨i, h⟩).originalKey ∉
            observedKeys "" [⟨some "y.jpg", some 3⟩, ⟨some "a.jpg", some 4⟩])) ∧
      (((([recX, recY] : Db)).get ⟨i, h⟩).originalKey ∈
          observedKeys "" [⟨some "y.jpg", some 3⟩, ⟨some "a.jpg", some 4⟩] →
        (((runSync true "" "c"
          (Except.ok [⟨some "y.jpg", some 3⟩, ⟨some "a.jpg", some 4⟩])
          (fun _ _ => 1) 0 [recX, recY]).snd).get ⟨i, h'⟩).isActive
          = true)) :=
  ⟨by decide, by decide, by decide,
    runSync_deactivates_exactly_unobserved "" "c"
      [⟨some "y.jpg", some 3⟩, ⟨some "a.jpg", some 4⟩] (fun _ _ => 1) 0
      [recX, recY] (by decide) (by decide) (by decide)⟩

theorem syncAddLoop_noop (pfx cdn : String) (draws : Nat → Nat → Nat)
    (now : Nat) (db1 : Db) (obs : List String)
    (hN1 : ∀ r ∈ db1, r.isActive = decide (r.originalKey ∈ obs)) :
    ∀ (objs : List RObj),
    (∀ k ∈ observedKeys pfx objs, k ∈ keysOf db1 ∧ k ∈ obs) →
    ∀ st, syncAddLoop pfx cdn (snapshotOf db1) (keysOf db1) draws now objs st
      = .ok st := by
  intro objs
  induction objs with
  | nil => intro _ st; rfl
  | cons o rest ih =>
    intro hsub st
    have hsub' : ∀ k ∈ observedKeys pfx rest, k ∈ keysOf db1 ∧ k ∈ obs := by
      intro k hk
      refine hsub k ?_
      rw [observedKeys_cons]
      cases hko : objKey? pfx o with
      | none => exact hk
      | some k' => exact List.mem_cons_of_mem _ hk
    rw [syncAddLoop_cons]
    cases hko : objKey? pfx o with
    | none =>
      simp only [hko]
      exact ih hsub' st
    | some k =>
      simp only [hko]
      obtain ⟨hkdb, hkobs⟩ := hsub k (by
        rw [observedKeys_cons]
        simp only [hko]
        exact List.mem_cons_self _ _)
      have hcont : (keysOf db1).contains k = true := (contains_iff_mem _ _).2 hkdb
      rw [if_pos hcont]
      cases hf : (snapshotOf db1).find? (fun p => p.fst = k) with
      | none =>
        simp only [hf]
        exact ih hsub' st
      | some p =>
        simp only [hf]
        have hps : p.snd = true := by
          have hpp := List.find?_some hf
          have hpm := List.mem_of_find?_eq_some hf
          rcases List.mem_map.1 hpm with ⟨r, hrm, hrp⟩
          have hkey : p.fst = k := of_decide_eq_true hpp
          rw [← hrp]
          show r.isActive = true
          rw [hN1 r hrm]
          have hrk : r.originalKey = k := by
            rw [← hkey, ← hrp]
          rw [hrk]
          exact decide_eq_true hkobs
        rw [if_neg (show ¬ p.snd = false from fun hh => by
          rw [hps] at hh
          cases hh)]
        exact ih hsub' st

theorem deactLoop_noop (r2 : List String) :
    ∀ (entries : List (String × Bool)),
    (∀ p ∈ entries, p.snd = true → r2.contains p.fst = true) →
    ∀ (cur : Db) (n : Nat), deactLoop r2 entries cur n = (cur, n) := by
  intro entries
  induction entries with
  | nil => intro _ cur n; rfl
  | cons p rest ih =>
    intro hent cur n
    rw [deactLoop_cons, if_neg ?_]
    · exact ih (fun q hq => hent q (List.mem_cons_of_mem _ hq)) cur n
    · rintro ⟨hnc, hsnd⟩
      exact hnc (hent p (List.mem_cons_self _ _) hsnd)

/-- A reconciliation pass over a table already in agreement with the
listing (each record active exactly when its key is observed, every
observed key registered) reports ok with zero counts and returns the table
unchanged. -/
theorem runSync_second_pass (pfx cdn : String) (objs : List RObj)
    (draws : Nat → Nat → Nat) (now : Nat) (db1 : Db)
    (hN1 : ∀ r ∈ db1,
      r.isActive = decide (r.originalKey ∈ observedKeys pfx objs))
    (hN2 : ∀ k ∈ observedKeys pfx objs, k ∈ keysOf db1) :
    runSync true pfx cdn (.ok objs) draws now db1 =
      ({ ok := true, skipped := false, reason := none,
         newCount := 0, deactivatedCount := 0, reactivatedCount := 0 },
       db1) := by
  have hadd : syncAddLoop pfx cdn (snapshotOf db1)
      (db1.map (fun r => r.originalKey)) draws now objs ⟨db1, 0, 0, 0⟩
      = .ok ⟨db1, 0, 0, 0⟩ :=
    syncAddLoop_noop pfx cdn draws now db1 (observedKeys pfx objs) hN1 objs
      (fun k hk => ⟨hN2 k hk, hk⟩) ⟨db1, 0, 0, 0⟩
  rw [runSync_ok_eq pfx cdn objs draws now db1 ⟨db1, 0, 0, 0⟩ hadd]
  have hdl : deactLoop (observedKeys pfx objs) (snapshotOf db1) db1 0
      = (db1, 0) := by
    refine deactLoop_noop (observedKeys pfx objs) (snapshotOf db1) ?_ db1 0
    intro p hp hsnd
    rcases List.mem_map.1 hp with ⟨r, hrm, hrp⟩
    have hract : r.isActive = true := by rw [← hrp] at hsnd; exact hsnd
    have hmem : r.originalKey ∈ observedKeys pfx objs := by
      refine of_decide_eq_true ?_
      rw [← hN1 r hrm]
      exact hract
    have : (observedKeys pfx objs).contains r.originalKey = true :=
      (contains_iff_mem _ _).2 hmem
    rw [← hrp]
    exact this
  rw [hdl]

/-- C4 counterexample: with the catalog holding one record with id `00000`
and the bucket listing just `a.jpg`, a first pass whose draws all collide
aborts after creating nothing (ok = false), and a second pass over the
unchanged bucket with different draws reports `newCount = 1` and grows the
catalog — so running reconciliation twice over an unchanged bucket does
not always give a zero-count second run with an unchanged catalog. -/
theorem runSync_twice_counterexample :
    (runSync true "" "c" (Except.ok [⟨some "a.jpg", none⟩]) (fun _ _ => 1) 0
      (runSync true "" "c" (Except.ok [⟨some "a.jpg", none⟩])
        (fun _ _ => 0) 0 [recX]).snd).fst.newCount = 1 ∧
    (runSync true "" "c" (Except.ok [⟨some "a.jpg", none⟩])
      (fun _ _ => 0) 0 [recX]).snd.length = 1 ∧
    (runSync true "" "c" (Except.ok [⟨some "a.jpg", none⟩]) (fun _ _ => 1) 0
      (runSync true "" "c" (Except.ok [⟨some "a.jpg", none⟩])
        (fun _ _ => 0) 0 [recX]).snd).snd.length = 2 :=
  ⟨by decide, by decide, by decide⟩

/-- C4 amended: for every catalog state (with unique keys and ids) and
bucket listing, if the first reconciliation pass completes successfully
(reports ok), then a second pass over the unchanged bucket — with any
draws and timestamp — reports ok with newCount, deactivatedCount and
reactivatedCount all zero, and leaves the catalog exactly as the first
pass left it. -/
theorem runSync_idempotent_after_ok (pfx cdn : String) (objs : List RObj)
    (draws1 draws2 : Nat → Nat → Nat) (now1 now2 : Nat) (db : Db)
    (hkeys : (keysOf db).Nodup) (hids : (idsOf db).Nodup)
    (hok : (runSync true pfx cdn (Except.ok objs) draws1 now1 db).fst.ok
      = true) :
    runSync true pfx cdn (Except.ok objs) draws2 now2
        (runSync true pfx cdn (Except.ok objs) draws1 now1 db).snd =
      ({ ok := true, skipped := false, reason := none, newCount := 0,
         deactivatedCount := 0, reactivatedCount := 0 },
       (runSync true pfx cdn (Except.ok objs) draws1 now1 db).snd) := by
  obtain ⟨tail, hdb', htail, hcov⟩ :=
    runSync_ok_char pfx cdn objs draws1 now1 db hkeys hids hok
  refine runSync_second_pass pfx cdn objs draws2 now2 _ ?_ hcov
  intro r hr
  rw [hdb'] at hr
  rcases List.mem_append.1 hr with hm | hm
  · rcases List.mem_map.1 hm with ⟨x, hx, rfl⟩
    rw [isActive_setActive, originalKey_setActive]
  · obtain ⟨hobs, _, hact⟩ := htail r hm
    rw [hact, decide_eq_true hobs]

theorem runSync_idempotent_after_ok_witness :
    (keysOf [recX]).Nodup ∧ (idsOf [recX]).Nodup ∧
    (runSync true "" "c" (Except.ok [⟨some "a.jpg", none⟩])
      (fun _ _ => 1) 0 [recX]).fst.ok = true ∧
    runSync true "" "c" (Except.ok [⟨some "a.jpg", none⟩]) (fun _ _ => 7) 5
        (runSync true "" "c" (Except.ok [⟨some "a.jpg", none⟩])
          (fun _ _ => 1) 0 [recX]).snd =
      ({ ok := true, skipped := false, reason := none, newCount := 0,
         deactivatedCount := 0, reactivatedCount := 0 },
       (runSync true "" "c" (Except.ok [⟨some "a.jpg", none⟩])
         (fun _ _ => 1) 0 [recX]).snd) :=
  ⟨by decide, by decide, by decide,
    runSync_idempotent_after_ok "" "c" [⟨some "a.jpg", none⟩]
      (fun _ _ => 1) (fun _ _ => 7) 0 5 [recX]
      (by decide) (by decide) (by decide)⟩
